import Mathlib

/-!
# Verification of `dynetx.algorithms.assortativity`

A shallow embedding of `src/dynetx/algorithms/assortativity.py` (the
delta-conformity engine for dynamic networks) together with proofs about it.

Modelling conventions:

* Python dictionaries are embedded as association lists manipulated through
  `dget` (read, first occurrence), `dset` (insert-or-replace, `d[k] = v`),
  `dmod` (in-place modification of an existing entry) and `dappend`/`dalter`
  (`defaultdict` access).  Dictionaries built by the code through `dset` folds
  have no duplicate keys, so first-occurrence lookup agrees with Python.
* Real arithmetic is embedded exactly over `ℚ`; damping factors (`alpha`) are
  embedded as integers so that `dist ** alpha` and `d ** -alpha` stay inside
  `ℚ` (`zpow`).  Result keys use the alpha itself instead of Python's
  `str(a)`, which is injective on the embedded alphas.
* Fallible Python code (raising `ValueError`, `ZeroDivisionError`, `KeyError`)
  is embedded in `Except String`, the message naming the exception.
* The dynamic-graph backend (`dg.time_slice`), the time-respecting path oracle
  (`all_time_respecting_paths` / `annotate_paths`) and the temporal index
  (`dn.temporal_snapshots_ids`) live outside `src/`; following the spec they
  are taken as abstract inputs (see `delta_conformity` and
  `sliding_delta_conformity`).
-/

namespace DynetxAssort

/-- Python `d[k]` read access on an association list: first matching entry. -/
def dget {κ α : Type} [DecidableEq κ] : List (κ × α) → κ → Option α
  | [], _ => none
  | (a, b) :: t, key => if a = key then some b else dget t key

/-- Python `d[k] = v`: replace the first entry for `k` in place, else append. -/
def dset {κ α : Type} [DecidableEq κ] : List (κ × α) → κ → α → List (κ × α)
  | [], key, val => [(key, val)]
  | (a, b) :: t, key, val =>
    if a = key then (a, val) :: t else (a, b) :: dset t key val

/-- Python `d[k] = f(d[k])` on an existing key: modify the first entry for
`k` in place; entries for other keys are untouched. -/
def dmod {κ α : Type} [DecidableEq κ] : List (κ × α) → κ → (α → α) → List (κ × α)
  | [], _, _ => []
  | (a, b) :: t, key, f =>
    if a = key then (a, f b) :: t else (a, b) :: dmod t key f

/-- Python `defaultdict` mutation `d[k] = f(d[k])` where a missing key first
receives the default `dflt`. -/
def dalter {κ α : Type} [DecidableEq κ] : List (κ × α) → κ → α → (α → α) → List (κ × α)
  | [], key, dflt, f => [(key, f dflt)]
  | (a, b) :: t, key, dflt, f =>
    if a = key then (a, f b) :: t else (a, b) :: dalter t key dflt f

/-- Python `defaultdict(list)` mutation `d[k].append(x)`. -/
def dappend {κ α : Type} [DecidableEq κ] (m : List (κ × List α)) (key : κ) (x : α) :
    List (κ × List α) :=
  dalter m key [] (fun l => l ++ [x])

/-- The list of distinct elements of `l` in order of first occurrence — the
key sequence of a Python dict populated by iterating over `l`. -/
def dedupKeep {α : Type} [DecidableEq α] : List α → List α
  | [] => []
  | x :: xs => x :: (dedupKeep xs).filter (fun y => y ≠ x)

/-- A static snapshot of the dynamic graph, as materialized by
`dg.time_slice`: node list, node attributes (`g._node[v][label]`) and
adjacency (`g.neighbors(v)`).  Modelled from the spec: the snapshot provider
is an external collaborator, so attributes are a total map. -/
structure Snapshot (V : Type) where
  nodes : List V
  attr : V → String → String
  neighbors : V → List V

/-- Label hierarchies: `hierarchies[label][value]` is an ordinal rank. -/
abbrev Hier := Option (List (String × List (String × ℤ)))

/-- The nested result dictionary `res[str(alpha)][profile_key][node]`. -/
abbrev Res (V : Type) := List (ℤ × List (String × List (V × ℚ)))

/-- The sliding-window result `seq[str(alpha)][profile_key][node]`,
a list of `(timestamp, score)` pairs. -/
abbrev Seqs (V : Type) := List (ℤ × List (String × List (V × List (ℤ × ℚ))))

/-- Embedding of `__distance`: distance of two label values in a plain
hierarchy.  `-1` when no hierarchy covers `label`; a missing value raises
`KeyError`; a zero denominator raises `ZeroDivisionError`. -/
def distance (label : String) (v1 v2 : String) (hierarchies : Hier) : Except String ℚ :=
  match hierarchies with
  | none => .ok (-1)
  | some hs =>
    match dget hs label with
    | none => .ok (-1)
    | some hmap =>
      match dget hmap v1, dget hmap v2 with
      | some r1, some r2 =>
        if ((hmap.length : ℚ) - 1) = 0 then .error "ZeroDivisionError"
        else .ok (-|(r1 : ℚ) - (r2 : ℚ)| / ((hmap.length : ℚ) - 1))
      | _, _ => .error "KeyError"

/-- Embedding of lines 28–31 of `__label_frequency`: the local homogeneity
weight of `v` — the fraction of `v`'s neighbors sharing `v`'s value for
`label`, a zero fraction replaced by `1`; an empty neighbor list raises
`ZeroDivisionError`. -/
def fweight {V : Type} (g : Snapshot V) (label : String) (v : V) : Except String ℚ :=
  let vneigh := g.neighbors v
  if vneigh.length = 0 then .error "ZeroDivisionError"
  else
    let flabel : ℚ :=
      ((vneigh.filter (fun x => g.attr x label = g.attr v label)).length : ℚ) /
        (vneigh.length : ℚ)
    .ok (if flabel > 0 then flabel else 1)

/-- Embedding of line 27 of `__label_frequency`: the agreement indicator —
`1` on an exact label-value match, otherwise the hierarchy distance. -/
def sgnInd {V : Type} (g : Snapshot V) (label : String) (au : String) (v : V)
    (hierarchies : Hier) : Except String ℚ :=
  if au = g.attr v label then .ok 1 else distance label au (g.attr v label) hierarchies

/-- Lines 27–32 of `__label_frequency` for one candidate `v`: the agreement
indicator weighted by the local homogeneity, `sgn[v] * f_label`. -/
def shellTerm {V : Type} [DecidableEq V] (g : Snapshot V) (label : String) (au : String)
    (hierarchies : Hier) (v : V) : Except String ℚ := do
  let sgnv ← sgnInd g label au v hierarchies
  let fl ← fweight g label v
  pure (sgnv * fl)

/-- The body of the `for label in labels` loop of `__label_frequency`:
`s *= sum(sgn.values()) / len(nodes)`.  The `sgn` dict is keyed by node,
hence the fold over `dedupKeep nodes`; the division by `len(nodes)` raises
`ZeroDivisionError` on an empty shell. -/
def labelStep {V : Type} [DecidableEq V] (g : Snapshot V) (u : V) (nodes : List V)
    (hierarchies : Hier) (s : ℚ) (label : String) : Except String ℚ := do
  let terms ← (dedupKeep nodes).mapM (shellTerm g label (g.attr u label) hierarchies)
  if nodes.length = 0 then Except.error "ZeroDivisionError"
  else pure (s * (terms.sum / (nodes.length : ℚ)))

/-- Embedding of `__label_frequency`: similarity of node profiles, the
product over the labels of the per-label aggregate. -/
def labelFrequency {V : Type} [DecidableEq V] (g : Snapshot V) (u : V) (nodes : List V)
    (labels : List String) (hierarchies : Hier) : Except String ℚ :=
  labels.foldlM (labelStep g u nodes hierarchies) 1

/-- The normalization constant of `__normalize`:
`sum([(d ** -alpha) for d in range(1, max_dist + 1)])`. -/
def normSum (maxDist : ℕ) (alpha : ℤ) : ℚ :=
  ((List.range' 1 maxDist).map (fun d => (d : ℚ) ^ (-alpha))).sum

/-- One entry of the inner loop of `__normalize`:
`scores[str(alpha)][profile][u] /= norm` for a single profile entry. -/
def normEntry {V : Type} [DecidableEq V] (u : V) (norm : ℚ) (pv : String × List (V × ℚ)) :
    Except String (String × List (V × ℚ)) :=
  match dget pv.2 u with
  | none => .error "KeyError"
  | some old =>
    if norm = 0 then .error "ZeroDivisionError"
    else .ok (pv.1, dset pv.2 u (old / norm))

/-- The body of the `for alpha in alphas` loop of `__normalize`: compute
`norm` and divide `scores[str(alpha)][profile][u]` for every profile key. -/
def normAlphaStep {V : Type} [DecidableEq V] (u : V) (maxDist : ℕ) (sc : Res V)
    (alpha : ℤ) : Except String (Res V) := do
  let norm := normSum maxDist alpha
  match dget sc alpha with
  | none => Except.error "KeyError"
  | some inner => do
    let inner' ← inner.mapM (normEntry u norm)
    pure (dset sc alpha inner')

/-- Embedding of `__normalize`: divide each of `u`'s accumulated
`(alpha, profile)` scores by `normSum max_dist alpha`. -/
def normalizeScores {V : Type} [DecidableEq V] (u : V) (scores : Res V) (maxDist : ℕ)
    (alphas : List ℤ) : Except String (Res V) :=
  alphas.foldlM (normAlphaStep u maxDist) scores

/-- Embedding of `itertools.combinations l i`: all `i`-element sublists of `l`, in
itertools order (input order within a combination, lexicographic by index). -/
def combinationsList {α : Type} : List α → ℕ → List (List α)
  | _, 0 => [[]]
  | [], _ + 1 => []
  | x :: xs, n + 1 => (combinationsList xs n).map (fun c => x :: c) ++ combinationsList xs (n + 1)

/-- Lines 110–112 of `delta_conformity`: all combinations of the labels of
size `1 .. profile_size`, accumulated with `extend`. -/
def profilesOf (labels : List String) (profileSize : ℕ) : List (List String) :=
  (List.range' 1 profileSize).foldl (fun acc i => acc ++ combinationsList labels i) []

/-- Embedding of `"_".join(profile)`, the profile key of the result dictionary. -/
def joinKey (profile : List String) : String :=
  String.intercalate "_" profile

/-- Nested triple read `res[alpha][profile_key][node]`. -/
def dget3 {V : Type} [DecidableEq V] (m : Res V) (a : ℤ) (p : String) (n : V) : Option ℚ :=
  match dget m a with
  | none => none
  | some inner =>
    match dget inner p with
    | none => none
    | some nd => dget nd n

/-- Nested triple mutation `res[alpha][profile_key][node] = f(...)` on
existing keys (the code only updates keys it initialized). -/
def dmod3 {V : Type} [DecidableEq V] (m : Res V) (a : ℤ) (p : String) (n : V) (f : ℚ → ℚ) :
    Res V :=
  dmod m a (fun inner => dmod inner p (fun nd => dmod nd n f))

/-- Line 133 of `delta_conformity`:
`res = {str(a): {"_".join(profile): {n: 0 for n in g.nodes()} ...} ...}`. -/
def initRes {V : Type} [DecidableEq V] (alphas : List ℤ) (pkeys : List String)
    (ns : List V) : Res V :=
  alphas.foldl
    (fun m a =>
      dset m a
        (pkeys.foldl
          (fun mp p => dset mp p (ns.foldl (fun mn n => dset mn n (0 : ℚ)) [])) []))
    []

/-- Lines 137–139 and 143: the per-source distance dict
`distances[u] = {v: dist}`, read off the oracle's pair list (later entries
overwrite earlier ones, as in a Python dict). -/
def buildNodeDist {V : Type} [DecidableEq V] (dists : List ((V × V) × ℕ)) (u : V) :
    List (V × ℕ) :=
  dists.foldl (fun m p => if p.1.1 = u then dset m p.1.2 p.2 else m) []

/-- Lines 145–148: `dist_to_nodes[dist].append(node)` — group the reachable
nodes of one source by distance. -/
def groupByDist {V : Type} [DecidableEq V] (spu : List (V × ℕ)) : List (ℕ × List V) :=
  spu.foldl (fun m p => dappend m p.2 p.1) []

/-- Embedding of `max(sp.keys())` for a non-empty ℕ key list (`0` is neutral for `max`). -/
def maxKey (l : List ℕ) : ℕ :=
  l.foldl max 0

/-- Lines 152–158 of `delta_conformity` for one profile in one shell at
distance `d`: compute the similarity and add `sim / dist ** alpha` into
`res[str(alpha)][profile_key][u]` for every alpha. -/
def profStep {V : Type} [DecidableEq V] (g : Snapshot V) (alphas : List ℤ)
    (hierarchies : Hier) (u : V) (shellNodes : List V) (d : ℕ) (r : Res V)
    (profile : List String) : Except String (Res V) := do
  let sim ← labelFrequency g u shellNodes profile hierarchies
  pure (alphas.foldl
    (fun r' alpha =>
      dmod3 r' alpha (joinKey profile) u (fun x => x + sim / (d : ℚ) ^ alpha))
    r)

/-- Lines 150–158 of `delta_conformity` for one shell `(dist, nodes)`:
skip distance `0`, otherwise run `profStep` for every profile. -/
def shellStep {V : Type} [DecidableEq V] (g : Snapshot V) (profiles : List (List String))
    (alphas : List ℤ) (hierarchies : Hier) (u : V) (res : Res V) (shell : ℕ × List V) :
    Except String (Res V) :=
  if shell.1 ≠ 0 then
    profiles.foldlM (profStep g alphas hierarchies u shell.2 shell.1) res
  else pure res

/-- Lines 141–161: the whole body of the per-node loop of
`delta_conformity` — group `u`'s distances into shells, accumulate every
shell, and normalize by `u`'s maximal observed distance when `u` has any. -/
def nodeStep {V : Type} [DecidableEq V] (g : Snapshot V) (dists : List ((V × V) × ℕ))
    (profiles : List (List String)) (alphas : List ℤ) (hierarchies : Hier) (res : Res V)
    (u : V) : Except String (Res V) := do
  let spu := buildNodeDist dists u
  let groups := groupByDist spu
  let res' ← groups.foldlM (shellStep g profiles alphas hierarchies u) res
  if groups.length > 0 then normalizeScores u res' (maxKey (groups.map Prod.fst)) alphas
  else pure res'

/-- Embedding of `delta_conformity`.  `slice` is the snapshot provider
(`dg.time_slice`) and `oracle` the time-respecting path oracle
(`all_time_respecting_paths` + `annotate_paths` + the chosen `path_type`);
modelled from the spec, both are external collaborators, so they enter as
abstract inputs, applied at exactly the arguments the source passes
(`time_slice(t_from=start, t_to=start + delta)` and paths on
`(start, delta + start)`).  The attribute-value frequency table of lines
116–131 is computed but never used by the source and cannot fail, so it is
not represented. -/
def delta_conformity {V : Type} [DecidableEq V] (slice : ℤ → ℤ → Snapshot V)
    (oracle : ℤ → ℤ → List ((V × V) × ℕ)) (start delta : ℤ) (alphas : List ℤ)
    (labels : List String) (profileSize : ℕ) (hierarchies : Hier) :
    Except String (Res V) :=
  if profileSize > labels.length then
    .error "profile_size must be <= len(labels)"
  else if alphas.length < 1 ∨ labels.length < 1 then
    .error "At list one value must be specified for both alphas and labels"
  else
    let profiles := profilesOf labels profileSize
    let g := slice start (start + delta)
    let dists := oracle start (delta + start)
    let res0 := initRes alphas (profiles.map joinKey) g.nodes
    g.nodes.foldlM (nodeStep g dists profiles alphas hierarchies) res0

/-- Embedding of `tids[-1]` as used inside the loop of `sliding_delta_conformity`
(only ever evaluated when `tids` is non-empty). -/
def lastTid (tids : List ℤ) : ℤ :=
  tids.getLastD 0

/-- Lines 208–211: append one window's scores, stamped `t + delta`, onto the
growing per-(alpha, profile, node) sequences. -/
def appendWindow {V : Type} [DecidableEq V] (acc : Seqs V) (ts : ℤ) (dconf : Res V) :
    Seqs V :=
  dconf.foldl
    (fun a1 av =>
      av.2.foldl
        (fun a2 pv =>
          pv.2.foldl
            (fun a3 nv =>
              dalter a3 av.1 []
                (fun inner =>
                  dalter inner pv.1 []
                    (fun nd => dalter nd nv.1 [] (fun l => l ++ [(ts, nv.2)]))))
            a2)
        a1)
    acc

/-- Embedding of `sliding_delta_conformity`: for every temporal id `t` with
`t + delta < tids[-1]`, run `delta_conformity` on the window starting at `t`
and append the scores at timestamp `t + delta`.  Modelled from the spec:
`tids` is the output of the external temporal index provider
(`dn.temporal_snapshots_ids`). -/
def sliding_delta_conformity {V : Type} [DecidableEq V] (tids : List ℤ)
    (slice : ℤ → ℤ → Snapshot V) (oracle : ℤ → ℤ → List ((V × V) × ℕ)) (delta : ℤ)
    (alphas : List ℤ) (labels : List String) (profileSize : ℕ) (hierarchies : Hier) :
    Except String (Seqs V) :=
  tids.foldlM (fun acc t =>
    if t + delta < lastTid tids then do
      let dconf ← delta_conformity slice oracle t delta alphas labels profileSize hierarchies
      pure (appendWindow acc (t + delta) dconf)
    else pure acc) []

/-- The similarity value of one profile against one shell, with `0` standing
in for a raised exception (used only to express successful runs of
`shellStep` as pure updates; on success it agrees with `labelFrequency`). -/
def simValAt {V : Type} [DecidableEq V] (g : Snapshot V) (u : V) (shellNodes : List V)
    (profile : List String) (hierarchies : Hier) : ℚ :=
  match labelFrequency g u shellNodes profile hierarchies with
  | .ok q => q
  | .error _ => 0

/-- The list of `(key, amount)` additions one profile contributes in one
shell: one per alpha, `amount = sim / dist ** alpha`. -/
def profUpds (alphas : List ℤ) (d : ℕ) (simv : ℚ) (p : List String) :
    List ((ℤ × String) × ℚ) :=
  alphas.map (fun alpha => ((alpha, joinKey p), simv / (d : ℚ) ^ alpha))

/-- All additions a successful `shellStep` performs on the result for one
shell (empty for the skipped distance-`0` shell). -/
def shellUpds {V : Type} [DecidableEq V] (g : Snapshot V) (profiles : List (List String))
    (alphas : List ℤ) (hierarchies : Hier) (u : V) (s : ℕ × List V) :
    List ((ℤ × String) × ℚ) :=
  if s.1 = 0 then []
  else (profiles.map (fun p => profUpds alphas s.1 (simValAt g u s.2 p hierarchies) p)).flatten

/-- Apply a list of `(alpha, profile key) ↦ (+ amount)` additions to the
entries of node `u`. -/
def applyAdds {V : Type} [DecidableEq V] (l : List ((ℤ × String) × ℚ)) (u : V)
    (res : Res V) : Res V :=
  l.foldl (fun r t => dmod3 r t.1.1 t.1.2 u (fun x => x + t.2)) res

/-- Modelled from the spec (§4.1), for comparison with `fweight`: the local
homogeneity weight of `v` — "the fraction of `v`'s direct neighbors (in the
snapshot, irrespective of temporal distance from `source`) that share `v`'s
own value for the label; if this fraction is `0` ..., treat it as `1`". -/
def homogeneityWeightSpec {V : Type} [DecidableEq V] (g : Snapshot V) (label : String)
    (v : V) : ℚ :=
  let frac : ℚ :=
    (((g.neighbors v).filter (fun x => g.attr x label = g.attr v label)).length : ℚ) /
      ((g.neighbors v).length : ℚ)
  if frac = 0 then 1 else frac

instance decEqListIntRat : DecidableEq (List (ℤ × ℚ)) := inferInstance

instance decEqNatSeq : DecidableEq (ℕ × List (ℤ × ℚ)) := inferInstance

instance decEqNodeSeqs : DecidableEq (List (ℕ × List (ℤ × ℚ))) := inferInstance

instance decEqProfSeqs : DecidableEq (String × List (ℕ × List (ℤ × ℚ))) := inferInstance

instance decEqProfSeqList : DecidableEq (List (String × List (ℕ × List (ℤ × ℚ)))) :=
  inferInstance

instance decEqSeqsNat : DecidableEq (Seqs ℕ) := inferInstance

instance decEqNodeScores : DecidableEq (List (ℕ × ℚ)) := inferInstance

instance decEqProfScores : DecidableEq (String × List (ℕ × ℚ)) := inferInstance

instance decEqProfScoreList : DecidableEq (List (String × List (ℕ × ℚ))) := inferInstance

instance decEqResNat : DecidableEq (Res ℕ) := inferInstance

instance decEqExcept {ε α : Type} [DecidableEq ε] [DecidableEq α] :
    DecidableEq (Except ε α) := fun x y =>
  match x, y with
  | .ok a, .ok b =>
    if h : a = b then isTrue (by rw [h]) else isFalse (fun hh => h (Except.ok.inj hh))
  | .error a, .error b =>
    if h : a = b then isTrue (by rw [h]) else isFalse (fun hh => h (Except.error.inj hh))
  | .ok _, .error _ => isFalse (fun hh => Except.noConfusion hh)
  | .error _, .ok _ => isFalse (fun hh => Except.noConfusion hh)

/-- A one-node snapshot provider (every window sees node `0` with label
value `"x"` and no edges): concrete instance for the sliding-window run. -/
def sliceOne : ℤ → ℤ → Snapshot ℕ :=
  fun _ _ => ⟨[0], fun _ _ => "x", fun _ => []⟩

/-- The empty path oracle: no reachable pairs in any window. -/
def oracleEmpty : ℤ → ℤ → List ((ℕ × ℕ) × ℕ) :=
  fun _ _ => []

/-- A snapshot with an isolated node `1` (no neighbors): concrete instance
for the zero-degree behaviour of the similarity scorer. -/
def gIsolated : Snapshot ℕ :=
  ⟨[0, 1], fun _ _ => "x", fun _ => []⟩

/-- A two-node snapshot, both nodes labelled `"x"`, joined by an edge:
concrete instance for exact-match similarity runs. -/
def gPair : Snapshot ℕ :=
  ⟨[0, 1], fun _ _ => "x", fun v => if v = 0 then [1] else [0]⟩

/-- A three-node snapshot where node `0` is labelled `"a"` and nodes `1`, `2`
are labelled `"b"`: concrete instance for hierarchy-based indicators. -/
def gMixed : Snapshot ℕ :=
  ⟨[0, 1, 2], fun v _ => if v = 0 then "a" else "b",
    fun v => if v = 0 then [1] else [0, 2]⟩

/-- A three-value hierarchy `a ↦ 0, b ↦ 1, c ↦ 2` for label `"l"`. -/
def hierABC : Hier :=
  some [("l", [("a", 0), ("b", 1), ("c", 2)])]

/-- A three-node path `0 – 1 – 2`, every node labelled `"x"`: concrete
instance whose endpoints observe maximal distance `2` while the middle node
observes maximal distance `1`. -/
def gChain : Snapshot ℕ :=
  ⟨[0, 1, 2], fun _ _ => "x",
    fun v => if v = 0 then [1] else if v = 1 then [0, 2] else [1]⟩

/-- A snapshot provider returning `gChain` for every window. -/
def sliceChain : ℤ → ℤ → Snapshot ℕ :=
  fun _ _ => gChain

/-- The path oracle of `gChain`: distances along the path, so node `0` sees
`{1 ↦ 1, 2 ↦ 2}` while node `1` sees `{0 ↦ 1, 2 ↦ 1}`. -/
def oracleChain : ℤ → ℤ → List ((ℕ × ℕ) × ℕ) :=
  fun _ _ => [((0, 1), 1), ((0, 2), 2), ((1, 0), 1), ((1, 2), 1), ((2, 1), 1), ((2, 0), 2)]

/-! ### Association-list lemmas -/

theorem dget_dset {κ α : Type} [DecidableEq κ] (m : List (κ × α)) (k k' : κ) (v : α) :
    dget (dset m k v) k' = if k = k' then some v else dget m k' := by
  induction m with
  | nil =>
    by_cases h : k = k' <;> simp [dget, dset, h]
  | cons hd t ih =>
    obtain ⟨a, b⟩ := hd
    by_cases hak : a = k
    · subst hak
      by_cases hk' : a = k' <;> simp [dget, dset, hk']
    · by_cases hak' : a = k'
      · subst hak'
        have : ¬k = a := fun hh => hak hh.symm
        simp [dget, dset, hak, this]
      · simp [dget, dset, hak, hak', ih]

theorem dget_dmod {κ α : Type} [DecidableEq κ] (m : List (κ × α)) (k k' : κ) (f : α → α) :
    dget (dmod m k f) k' = if k = k' then Option.map f (dget m k') else dget m k' := by
  induction m with
  | nil =>
    by_cases h : k = k' <;> simp [dget, dmod, h]
  | cons hd t ih =>
    obtain ⟨a, b⟩ := hd
    by_cases hak : a = k
    · subst hak
      by_cases hk' : a = k' <;> simp [dget, dmod, hk']
    · by_cases hak' : a = k'
      · subst hak'
        have : ¬k = a := fun hh => hak hh.symm
        simp [dget, dmod, hak, this]
      · simp [dget, dmod, hak, hak', ih]

theorem dget_dalter {κ α : Type} [DecidableEq κ] (m : List (κ × α)) (k k' : κ) (dflt : α)
    (f : α → α) :
    dget (dalter m k dflt f) k' =
      if k = k' then some (f ((dget m k).getD dflt)) else dget m k' := by
  induction m with
  | nil =>
    by_cases h : k = k' <;> simp [dget, dalter, h]
  | cons hd t ih =>
    obtain ⟨a, b⟩ := hd
    by_cases hak : a = k
    · subst hak
      by_cases hk' : a = k' <;> simp [dget, dalter, hk']
    · by_cases hak' : a = k'
      · subst hak'
        have : ¬k = a := fun hh => hak hh.symm
        simp [dget, dalter, hak, this]
      · simp [dget, dalter, hak, hak', ih]

theorem dget_mem {κ α : Type} [DecidableEq κ] {m : List (κ × α)} {k : κ} {v : α}
    (h : dget m k = some v) : (k, v) ∈ m := by
  induction m with
  | nil => simp [dget] at h
  | cons hd t ih =>
    obtain ⟨a, b⟩ := hd
    by_cases hak : a = k
    · subst hak
      simp [dget] at h
      simp [h]
    · simp [dget, hak] at h
      exact List.mem_cons_of_mem _ (ih h)

theorem dget_foldl_dset_const {κ α : Type} [DecidableEq κ] (l : List κ) (c : α)
    (m0 : List (κ × α)) (k : κ) :
    dget (l.foldl (fun m x => dset m x c) m0) k = if k ∈ l then some c else dget m0 k := by
  induction l generalizing m0 with
  | nil => simp
  | cons x t ih =>
    simp only [List.foldl_cons, ih, dget_dset]
    by_cases hxk : x = k
    · subst hxk; simp
    · by_cases hkt : k ∈ t <;> simp [hkt, List.mem_cons, hxk, Ne.symm hxk]

theorem mem_dedupKeep {α : Type} [DecidableEq α] {l : List α} {x : α} :
    x ∈ dedupKeep l ↔ x ∈ l := by
  induction l with
  | nil => simp [dedupKeep]
  | cons a t ih =>
    by_cases hxa : x = a
    · subst hxa; simp [dedupKeep]
    · simp [dedupKeep, List.mem_filter, hxa, ih]

theorem dedupKeep_of_nodup {α : Type} [DecidableEq α] {l : List α} (h : l.Nodup) :
    dedupKeep l = l := by
  induction l with
  | nil => rfl
  | cons a t ih =>
    obtain ⟨ha, ht⟩ := List.nodup_cons.mp h
    have hrec := ih ht
    have : (dedupKeep t).filter (fun y => y ≠ a) = dedupKeep t := by
      apply List.filter_eq_self.mpr
      intro x hx
      have hxt : x ∈ t := mem_dedupKeep.mp hx
      have : x ≠ a := fun hh => ha (hh ▸ hxt)
      simpa using this
    simp only [dedupKeep, hrec] at this ⊢
    rw [this]

theorem exceptBind_ok {ε α β : Type} {x : Except ε α} {g : α → Except ε β} {r : β}
    (h : (x >>= g) = .ok r) : ∃ a, x = .ok a ∧ g a = .ok r := by
  cases x with
  | ok a => exact ⟨a, rfl, h⟩
  | error e => simp [Bind.bind, Except.bind] at h

theorem exceptBind_error {ε α β : Type} (e : ε) (g : α → Except ε β) :
    ((Except.error e : Except ε α) >>= g) = .error e := rfl

theorem two_mem_length {κ α : Type} {m : List (κ × α)} {k1 k2 : κ} {v1 v2 : α}
    (h1 : (k1, v1) ∈ m) (h2 : (k2, v2) ∈ m) (hne : k1 ≠ k2) : 2 ≤ m.length := by
  match m with
  | [] => simp at h1
  | [x] =>
    obtain ⟨a, b⟩ := x
    simp at h1 h2
    exact absurd (h1.1.trans h2.1.symm) hne
  | x :: y :: t => simp [Nat.succ_le_succ, Nat.le_add_left]

theorem sgnInd_none_ok {V : Type} [DecidableEq V] (g : Snapshot V) (label : String)
    (au : String) (v : V) : ∃ q, sgnInd g label au v none = .ok q := by
  by_cases h : au = g.attr v label
  · exact ⟨1, by simp [sgnInd, h]⟩
  · exact ⟨-1, by simp [sgnInd, h, distance]⟩

theorem fweight_cases {V : Type} [DecidableEq V] (g : Snapshot V) (label : String)
    (v : V) : fweight g label v = .error "ZeroDivisionError" ∨
      ∃ b, fweight g label v = .ok b := by
  by_cases h : (g.neighbors v).length = 0
  · left
    simp [fweight, h]
  · right
    simp only [fweight]
    rw [if_neg h]
    exact ⟨_, rfl⟩

theorem mapM_error_of_mem {α β : Type} {f : α → Except String β} {l : List α} {x : α}
    {e : String} (hx : x ∈ l)
    (hall : ∀ y ∈ l, f y = .error e ∨ ∃ b, f y = .ok b)
    (hfx : f x = .error e) : l.mapM f = .error e := by
  induction l with
  | nil => simp at hx
  | cons a t ih =>
    rw [List.mapM_cons]
    rcases hall a (by simp) with ha | ⟨b, hb⟩
    · simp [ha, Bind.bind, Except.bind]
    · have hxt : x ∈ t := by
        rcases List.mem_cons.mp hx with h | h
        · subst h; rw [hfx] at hb; exact absurd hb (by simp)
        · exact h
      have ht := ih hxt (fun y hy => hall y (List.mem_cons_of_mem _ hy))
      have ht' : List.mapM.loop f t [] = .error e := ht
      simp [hb, ht, ht', Bind.bind, Except.bind]

/-! ### Claim C10: hierarchy lookup errors versus the `-1` fallback -/

/-- C10: when a hierarchy exists for a label but a value is missing from its
rank map, `__distance` fails with a lookup error (`KeyError`) instead of
falling back to `-1`; the `-1` fallback fires only when no hierarchy entry
exists for the label at all (no `hierarchies`, or `label` not a key). -/
theorem claim_C10 (label v1 v2 : String) (hier : Hier) :
    (∀ hs hmap, hier = some hs → dget hs label = some hmap →
      (dget hmap v1 = none ∨ dget hmap v2 = none) →
      distance label v1 v2 hier = .error "KeyError") ∧
    (hier = none → distance label v1 v2 hier = .ok (-1)) ∧
    (∀ hs, hier = some hs → dget hs label = none →
      distance label v1 v2 hier = .ok (-1)) := by
  refine ⟨?_, ?_, ?_⟩
  · rintro hs hmap rfl hget hnone
    rcases hnone with h | h
    · cases hv2 : dget hmap v2 <;> simp [distance, hget, h, hv2]
    · cases hv1 : dget hmap v1 <;> simp [distance, hget, h, hv1]
  · rintro rfl
    rfl
  · rintro hs rfl hget
    simp [distance, hget]

/-- Witness for C10 on the concrete hierarchy `hierABC`: a missing value
`"z"` raises `KeyError`; no hierarchies at all, or a label (`"m"`) without a
hierarchy, give the `-1` fallback. -/
theorem claim_C10_witness :
    distance "l" "a" "z" hierABC = .error "KeyError" ∧
    distance "l" "a" "b" none = .ok (-1) ∧
    distance "m" "a" "b" hierABC = .ok (-1) := by
  refine ⟨?_, ?_, ?_⟩
  · exact (claim_C10 "l" "a" "z" hierABC).1 [("l", [("a", 0), ("b", 1), ("c", 2)])]
      [("a", 0), ("b", 1), ("c", 2)] rfl (by simp [dget])
      (Or.inr (by simp [dget]))
  · exact (claim_C10 "l" "a" "b" none).2.1 rfl
  · exact (claim_C10 "m" "a" "b" hierABC).2.2 [("l", [("a", 0), ("b", 1), ("c", 2)])] rfl
      (by simp [dget])

/-! ### Claim C3: argument validation happens first -/

/-- C3: `delta_conformity` fails with a `ValueError` whenever
`profile_size > len(labels)`, or `alphas` is empty, or `labels` is empty —
and it does so for every snapshot provider and path oracle, i.e. before the
time slice is materialized or any other computation happens. -/
theorem claim_C3 {V : Type} [DecidableEq V] (slice : ℤ → ℤ → Snapshot V)
    (oracle : ℤ → ℤ → List ((V × V) × ℕ)) (start delta : ℤ) (alphas : List ℤ)
    (labels : List String) (profileSize : ℕ) (hier : Hier)
    (h : profileSize > labels.length ∨ alphas = [] ∨ labels = []) :
    delta_conformity slice oracle start delta alphas labels profileSize hier =
      .error (if profileSize > labels.length then "profile_size must be <= len(labels)"
        else "At list one value must be specified for both alphas and labels") := by
  unfold delta_conformity
  by_cases h1 : profileSize > labels.length
  · rw [if_pos h1, if_pos h1]
  · have h2 : alphas.length < 1 ∨ labels.length < 1 := by
      rcases h with h | h | h
      · exact absurd h h1
      · left
        simp [h]
      · right
        simp [h]
    rw [if_neg h1, if_pos h2, if_neg h1]

/-- Witness for C3: empty `alphas` on a concrete graph fails with the
`ValueError` message of line 108. -/
theorem claim_C3_witness :
    delta_conformity sliceOne oracleEmpty 1 5 [] ["l"] 1 none =
      .error "At list one value must be specified for both alphas and labels" := by
  have h := claim_C3 sliceOne oracleEmpty 1 5 [] ["l"] 1 none (Or.inr (Or.inl rfl))
  simpa using h

/-! ### Claim C8: the local homogeneity weight -/

/-- C8: for a candidate with at least one neighbor, the weight used by
`__label_frequency` is exactly the spec's homogeneity weight: the fraction of
`v`'s snapshot neighbors sharing `v`'s own value for the label, a fraction
of exactly `0` replaced by `1`.  (The weight depends only on `v`, the label
and the snapshot — not on the source node or any temporal distance.) -/
theorem claim_C8 {V : Type} [DecidableEq V] (g : Snapshot V) (label : String) (v : V)
    (h : g.neighbors v ≠ []) :
    fweight g label v = .ok (homogeneityWeightSpec g label v) := by
  have hlen : (g.neighbors v).length ≠ 0 := by
    simpa [List.length_eq_zero] using h
  have hnonneg : (0 : ℚ) ≤
      (((g.neighbors v).filter (fun x => g.attr x label = g.attr v label)).length : ℚ) /
        ((g.neighbors v).length : ℚ) :=
    div_nonneg (by positivity) (by positivity)
  unfold fweight homogeneityWeightSpec
  simp only [hlen, if_false, reduceIte]
  congr 1
  by_cases hz :
      (((g.neighbors v).filter (fun x => g.attr x label = g.attr v label)).length : ℚ) /
        ((g.neighbors v).length : ℚ) = 0
  · simp [hz]
  · have hpos : (0 : ℚ) <
        (((g.neighbors v).filter (fun x => g.attr x label = g.attr v label)).length : ℚ) /
          ((g.neighbors v).length : ℚ) :=
      lt_of_le_of_ne hnonneg (Ne.symm hz)
    simp [hpos, hz]

/-- Witness for C8: in `gPair`, node `1` has the single neighbor `0` with the
same value, so the weight is `1`. -/
theorem claim_C8_witness :
    fweight gPair "l" 1 = .ok (homogeneityWeightSpec gPair "l" 1) ∧
    homogeneityWeightSpec gPair "l" 1 = 1 := by
  constructor
  · exact claim_C8 gPair "l" 1 (by simp [gPair])
  · simp [homogeneityWeightSpec, gPair]

/-! ### Claim C2: zero-degree candidates are not guarded -/

/-- Counterexample to C2 as stated: in `gIsolated`, node `1` has no
neighbors; with `1` as the only shell candidate the similarity computation
raises `ZeroDivisionError` — the zero-degree case is not guarded and the
error propagates (under the claim the result would be `.ok 1`). -/
theorem claim_C2_counterexample :
    labelFrequency gIsolated 0 [1] ["l"] none = .error "ZeroDivisionError" := by
  decide

/-- C2 (amended): whenever a candidate `v` in the shell has no neighbors in
the snapshot, the similarity computation fails with a division-by-zero error
(here with no hierarchies, so that no lookup error can fire first); the
guard of line 31 only replaces a zero *fraction* computed over a non-empty
neighbor list by `1`, it does not guard zero degree. -/
theorem claim_C2 {V : Type} [DecidableEq V] (g : Snapshot V) (u : V) (nodes : List V)
    (labels : List String) (v : V) (hlab : labels ≠ []) (hv : v ∈ nodes)
    (hdeg : g.neighbors v = []) :
    labelFrequency g u nodes labels none = .error "ZeroDivisionError" := by
  obtain ⟨l, ls, rfl⟩ := List.exists_cons_of_ne_nil hlab
  have hstep : (dedupKeep nodes).mapM (shellTerm g l (g.attr u l) none) =
      .error "ZeroDivisionError" := by
    apply mapM_error_of_mem (x := v) (mem_dedupKeep.mpr hv)
    · intro y _
      obtain ⟨q, hq⟩ := sgnInd_none_ok g l (g.attr u l) y
      rcases fweight_cases g l y with hw | ⟨b, hw⟩
      · left
        simp [shellTerm, hq, hw, Bind.bind, Except.bind]
      · right
        exact ⟨q * b, by simp [shellTerm, hq, hw, Bind.bind, Except.bind, Pure.pure,
          Except.pure]⟩
    · obtain ⟨q, hq⟩ := sgnInd_none_ok g l (g.attr u l) v
      have hw : fweight g l v = .error "ZeroDivisionError" := by
        simp [fweight, hdeg]
      simp [shellTerm, hq, hw, Bind.bind, Except.bind]
  have hstep' : List.mapM.loop (shellTerm g l (g.attr u l) none) (dedupKeep nodes) [] =
      .error "ZeroDivisionError" := hstep
  have hls : labelStep g u nodes none 1 l = .error "ZeroDivisionError" := by
    simp [labelStep, hstep, hstep', Bind.bind, Except.bind]
  rw [labelFrequency, List.foldlM_cons, hls]
  rfl

/-- Witness for the amended C2: the isolated node `1` of `gIsolated` inside a
two-node shell makes the scorer raise. -/
theorem claim_C2_witness :
    labelFrequency gIsolated 0 [0, 1] ["l"] none = .error "ZeroDivisionError" :=
  claim_C2 gIsolated 0 [0, 1] ["l"] 1 (by simp) (by simp) rfl

/-! ### Claim C6: the agreement indicator -/

/-- C6: the agreement indicator of line 27 is `1` when source and candidate
share the label's value; otherwise, when a hierarchy covers the label and
ranks both values, it is `-|rank(au) - rank(av)| / (hierarchy_size - 1)`,
which lies in `[-1, 0]` for ordinal ranks (every rank in
`[0, hierarchy_size - 1]`); otherwise (no hierarchies, or none for this
label) it is the fixed penalty `-1`. -/
theorem claim_C6 {V : Type} [DecidableEq V] (g : Snapshot V) (label : String) (v : V)
    (au : String) (hier : Hier) :
    (au = g.attr v label → sgnInd g label au v hier = .ok 1) ∧
    (∀ hs hmap r1 r2, au ≠ g.attr v label → hier = some hs →
      dget hs label = some hmap → dget hmap au = some r1 →
      dget hmap (g.attr v label) = some r2 →
      (∀ e ∈ hmap, 0 ≤ e.2 ∧ e.2 ≤ (hmap.length : ℤ) - 1) →
      sgnInd g label au v hier =
          .ok (-|(r1 : ℚ) - (r2 : ℚ)| / ((hmap.length : ℚ) - 1)) ∧
        -1 ≤ -|(r1 : ℚ) - (r2 : ℚ)| / ((hmap.length : ℚ) - 1) ∧
        -|(r1 : ℚ) - (r2 : ℚ)| / ((hmap.length : ℚ) - 1) ≤ 0) ∧
    (au ≠ g.attr v label →
      (hier = none ∨ ∃ hs, hier = some hs ∧ dget hs label = none) →
      sgnInd g label au v hier = .ok (-1)) := by
  refine ⟨?_, ?_, ?_⟩
  · intro h
    simp [sgnInd, h]
  · rintro hs hmap r1 r2 hne rfl hget h1 h2 hrank
    have hmem1 := dget_mem h1
    have hmem2 := dget_mem h2
    have hlen : 2 ≤ hmap.length := two_mem_length hmem1 hmem2 hne
    have hlenq : (2 : ℚ) ≤ (hmap.length : ℚ) := by exact_mod_cast hlen
    have hd : ((hmap.length : ℚ) - 1) ≠ 0 := by linarith
    have hdpos : (0 : ℚ) < (hmap.length : ℚ) - 1 := by linarith
    have habs : |(r1 : ℚ) - (r2 : ℚ)| ≤ (hmap.length : ℚ) - 1 := by
      obtain ⟨hr10, hr11⟩ := hrank _ hmem1
      obtain ⟨hr20, hr21⟩ := hrank _ hmem2
      have hr10' : (0 : ℚ) ≤ (r1 : ℚ) := by exact_mod_cast hr10
      have hr20' : (0 : ℚ) ≤ (r2 : ℚ) := by exact_mod_cast hr20
      have hr11' : (r1 : ℚ) ≤ (hmap.length : ℚ) - 1 := by exact_mod_cast hr11
      have hr21' : (r2 : ℚ) ≤ (hmap.length : ℚ) - 1 := by exact_mod_cast hr21
      rw [abs_le]
      constructor <;> linarith
    refine ⟨by simp [sgnInd, hne, distance, hget, h1, h2, hd], ?_, ?_⟩
    · have hle1 : |(r1 : ℚ) - (r2 : ℚ)| / ((hmap.length : ℚ) - 1) ≤ 1 :=
        (div_le_one hdpos).mpr habs
      rw [neg_div]
      linarith
    · have h0 : (0 : ℚ) ≤ |(r1 : ℚ) - (r2 : ℚ)| / ((hmap.length : ℚ) - 1) :=
        div_nonneg (abs_nonneg _) (le_of_lt hdpos)
      rw [neg_div]
      linarith
  · rintro hne (rfl | ⟨hs, rfl, hget⟩)
    · simp [sgnInd, hne, distance]
    · simp [sgnInd, hne, distance, hget]

/-- Witness for C6 on `gMixed` and the three-value hierarchy `hierABC`:
a match gives `1`; values `"a"` and `"b"` of ranks `0` and `1` give `-1/2`,
inside `[-1, 0]`; the label `"m"` without a hierarchy gives `-1`. -/
theorem claim_C6_witness :
    sgnInd gMixed "l" "b" 1 hierABC = .ok 1 ∧
    sgnInd gMixed "l" "a" 1 hierABC = .ok (-(1 : ℚ) / 2) ∧
    (-1 : ℚ) ≤ -(1 : ℚ) / 2 ∧ (-(1 : ℚ) / 2) ≤ (0 : ℚ) ∧
    sgnInd gMixed "m" "a" 1 hierABC = .ok (-1) := by
  have h1 := (claim_C6 gMixed "l" 1 "b" hierABC).1 (by simp [gMixed])
  have h2 := (claim_C6 gMixed "l" 1 "a" hierABC).2.1 [("l", [("a", 0), ("b", 1), ("c", 2)])]
    [("a", 0), ("b", 1), ("c", 2)] 0 1 (by simp [gMixed]) rfl (by simp [dget])
    (by simp [dget]) (by simp [gMixed, dget]) (by decide)
  have h3 := (claim_C6 gMixed "m" 1 "a" hierABC).2.2 (by simp [gMixed])
    (Or.inr ⟨_, rfl, by simp [dget]⟩)
  obtain ⟨h2a, _, _⟩ := h2
  norm_num at h2a
  exact ⟨h1, by rw [h2a]; norm_num, by norm_num, by norm_num, h3⟩

/-! ### Claim C7: exact-match profiles average the homogeneity weights -/

theorem mapM_ok_cons {α β : Type} {f : α → Except String β} {a : α} {t : List α}
    {r : List β} (h : (a :: t).mapM f = .ok r) :
    ∃ b bs, f a = .ok b ∧ t.mapM f = .ok bs ∧ r = b :: bs := by
  rw [List.mapM_cons] at h
  obtain ⟨b, hb, h2⟩ := exceptBind_ok h
  obtain ⟨bs, hbs, h3⟩ := exceptBind_ok h2
  exact ⟨b, bs, hb, hbs, (Except.ok.inj h3).symm⟩

theorem mapM_shellTerm_of_match {V : Type} [DecidableEq V] (g : Snapshot V) (u : V)
    (label : String) : ∀ (nodes : List V) (ws : List ℚ),
    (∀ v ∈ nodes, g.attr v label = g.attr u label) →
    nodes.mapM (fweight g label) = .ok ws →
    nodes.mapM (shellTerm g label (g.attr u label) none) = .ok ws := by
  intro nodes
  induction nodes with
  | nil =>
    intro ws _ hws
    simpa [List.mapM_nil] using hws
  | cons v t ih =>
    intro ws hmatch hws
    obtain ⟨b, bs, hb, hbs, rfl⟩ := mapM_ok_cons hws
    have hsgn : sgnInd g label (g.attr u label) v none = .ok 1 := by
      simp [sgnInd, (hmatch v (by simp)).symm]
    have hterm : shellTerm g label (g.attr u label) none v = .ok b := by
      simp [shellTerm, hsgn, hb, Bind.bind, Except.bind, Pure.pure, Except.pure]
    have hrest := ih bs (fun w hw => hmatch w (List.mem_cons_of_mem _ hw)) hbs
    rw [List.mapM_cons, hterm]
    have hrest' : List.mapM.loop (shellTerm g label (g.attr u label) none) t [] =
        .ok bs := hrest
    simp [hrest, hrest', Bind.bind, Except.bind, Pure.pure, Except.pure]

/-- C7: for a single-label profile with no hierarchy, when every shell
candidate shares the source's value for the label, the similarity score is
the arithmetic mean of the candidates' local homogeneity weights. -/
theorem claim_C7 {V : Type} [DecidableEq V] (g : Snapshot V) (u : V) (nodes : List V)
    (label : String) (ws : List ℚ) (hne : nodes ≠ []) (hnd : nodes.Nodup)
    (hmatch : ∀ v ∈ nodes, g.attr v label = g.attr u label)
    (hws : nodes.mapM (fweight g label) = .ok ws) :
    labelFrequency g u nodes [label] none = .ok (ws.sum / (nodes.length : ℚ)) := by
  have hlen : ¬nodes.length = 0 := by simpa [List.length_eq_zero] using hne
  have hterms : (dedupKeep nodes).mapM (shellTerm g label (g.attr u label) none) =
      .ok ws := by
    rw [dedupKeep_of_nodup hnd]
    exact mapM_shellTerm_of_match g u label nodes ws hmatch hws
  have hterms' : List.mapM.loop (shellTerm g label (g.attr u label) none)
      (dedupKeep nodes) [] = .ok ws := hterms
  have hls : labelStep g u nodes none 1 label = .ok (ws.sum / (nodes.length : ℚ)) := by
    simp [labelStep, hterms, hterms', hlen, Bind.bind, Except.bind, Pure.pure, Except.pure]
  rw [labelFrequency, List.foldlM_cons, hls]
  rfl

/-- Witness for C7: in `gPair` the shell `[1]` around source `0` matches on
`"l"` everywhere, and the score is the average homogeneity weight `1`. -/
theorem claim_C7_witness :
    labelFrequency gPair 0 [1] ["l"] none = .ok 1 := by
  have hws : ([1] : List ℕ).mapM (fweight gPair "l") = .ok [1] := by
    simp [List.mapM, List.mapM.loop, fweight, gPair, Bind.bind, Except.bind,
      Pure.pure, Except.pure]
  have h := claim_C7 gPair 0 [1] "l" [1] (by simp) (by simp) (by simp [gPair]) hws
  simpa using h

/-! ### Claim C5: per-node normalization -/

theorem dget3_dset_ne {V : Type} [DecidableEq V] {m : Res V} {k a : ℤ} {p : String}
    {n : V} {v : List (String × List (V × ℚ))} (h : k ≠ a) :
    dget3 (dset m k v) a p n = dget3 m a p n := by
  simp [dget3, dget_dset, h]

theorem normEntry_ok {V : Type} [DecidableEq V] {u : V} {norm : ℚ}
    {pv b : String × List (V × ℚ)} (h : normEntry u norm pv = .ok b) :
    ∃ old, dget pv.2 u = some old ∧ norm ≠ 0 ∧ b = (pv.1, dset pv.2 u (old / norm)) := by
  cases hg : dget pv.2 u with
  | none => simp [normEntry, hg] at h
  | some old =>
    by_cases hn : norm = 0
    · simp [normEntry, hg, hn] at h
    · simp only [normEntry, hg, if_neg hn] at h
      exact ⟨old, rfl, hn, (Except.ok.inj h).symm⟩

theorem normEntry_error_of_norm_zero {V : Type} [DecidableEq V] {u : V}
    {pv : String × List (V × ℚ)} {old : ℚ} (hg : dget pv.2 u = some old) :
    normEntry u 0 pv = .error "ZeroDivisionError" := by
  simp [normEntry, hg]

theorem mapM_ok_forall {α β : Type} {f : α → Except String β} :
    ∀ {l : List α} {r : List β}, l.mapM f = .ok r → ∀ x ∈ l, ∃ b, f x = .ok b := by
  intro l
  induction l with
  | nil =>
    intro r _ x hx
    simp at hx
  | cons a t ih =>
    intro r h x hx
    obtain ⟨b, bs, hb, hbs, _⟩ := mapM_ok_cons h
    rcases List.mem_cons.mp hx with rfl | hxt
    · exact ⟨b, hb⟩
    · exact ih hbs x hxt

theorem mapM_normEntry_dget {V : Type} [DecidableEq V] (u : V) (norm : ℚ) :
    ∀ (inner inner' : List (String × List (V × ℚ))),
    inner.mapM (normEntry u norm) = .ok inner' → ∀ p,
    dget inner' p = (dget inner p).map
      (fun nd => dset nd u (((dget nd u).getD 0) / norm)) := by
  intro inner
  induction inner with
  | nil =>
    intro inner' h p
    have h' : inner' = [] := by
      rw [List.mapM_nil] at h
      exact (Except.ok.inj h).symm
    subst h'
    simp [dget]
  | cons e t ih =>
    intro inner' h p
    obtain ⟨b, bs, hb, hbs, rfl⟩ := mapM_ok_cons h
    obtain ⟨old, hold, hn, rfl⟩ := normEntry_ok hb
    obtain ⟨p0, nd0⟩ := e
    by_cases hp : p0 = p
    · subst hp
      simp [dget, hold]
    · simp [dget, hp, ih bs hbs p]

theorem normAlphaStep_ok {V : Type} [DecidableEq V] {u : V} {maxd : ℕ} {sc sc' : Res V}
    {alpha : ℤ} (h : normAlphaStep u maxd sc alpha = .ok sc') :
    ∃ inner inner', dget sc alpha = some inner ∧
      inner.mapM (normEntry u (normSum maxd alpha)) = .ok inner' ∧
      sc' = dset sc alpha inner' := by
  cases hg : dget sc alpha with
  | none => simp [normAlphaStep, hg] at h
  | some inner =>
    simp only [normAlphaStep, hg] at h
    obtain ⟨inner', hin, hpure⟩ := exceptBind_ok h
    refine ⟨inner, inner', rfl, hin, ?_⟩
    have := hpure
    simp only [Pure.pure, Except.pure] at this
    exact (Except.ok.inj this).symm

theorem normalizeScores_preserve_notmem {V : Type} [DecidableEq V] (u : V) (maxd : ℕ)
    (a : ℤ) (p : String) (n : V) :
    ∀ (t : List ℤ) (sc sc' : Res V), a ∉ t →
    List.foldlM (normAlphaStep u maxd) sc t = .ok sc' →
    dget3 sc' a p n = dget3 sc a p n := by
  intro t
  induction t with
  | nil =>
    intro sc sc' _ h
    rw [List.foldlM_nil] at h
    simp only [Pure.pure, Except.pure] at h
    rw [(Except.ok.inj h)]
  | cons α t ih =>
    intro sc sc' hmem h
    rw [List.foldlM_cons] at h
    obtain ⟨sc₂, hstep, hrest⟩ := exceptBind_ok h
    obtain ⟨inner, inner', hget, hmapm, rfl⟩ := normAlphaStep_ok hstep
    have hα : α ≠ a := fun hh => hmem (hh ▸ List.mem_cons_self _ _)
    rw [ih _ _ (fun hh => hmem (List.mem_cons_of_mem _ hh)) hrest]
    exact dget3_dset_ne hα

theorem normalizeScores_get {V : Type} [DecidableEq V] (u : V) (maxd : ℕ) (a : ℤ)
    (p : String) : ∀ (alphas : List ℤ) (scores scores' : Res V) (x : ℚ),
    alphas.Nodup → a ∈ alphas →
    normalizeScores u scores maxd alphas = .ok scores' →
    dget3 scores a p u = some x →
    dget3 scores' a p u = some (x / normSum maxd a) := by
  intro alphas
  induction alphas with
  | nil =>
    intro scores scores' x _ ha
    simp at ha
  | cons α t ih =>
    intro scores scores' x hnd ha h hx
    rw [normalizeScores, List.foldlM_cons] at h
    obtain ⟨sc₂, hstep, hrest⟩ := exceptBind_ok h
    obtain ⟨inner, inner', hget, hmapm, rfl⟩ := normAlphaStep_ok hstep
    by_cases hαa : α = a
    · subst hαa
      have hnotmem : α ∉ t := (List.nodup_cons.mp hnd).1
      simp only [dget3, hget] at hx
      cases hnd0 : dget inner p with
      | none =>
        simp only [hnd0] at hx
        exact Option.noConfusion hx
      | some nd =>
        simp only [hnd0] at hx
        have hin' := mapM_normEntry_dget u (normSum maxd α) inner inner' hmapm p
        rw [hnd0] at hin'
        have hval : dget inner' p = some (dset nd u (x / normSum maxd α)) := by
          rw [hin']
          simp [hx]
        have hsc2 : dget3 (dset scores α inner') α p u =
            some (x / normSum maxd α) := by
          simp [dget3, dget_dset, hval]
        rw [normalizeScores_preserve_notmem u maxd α p u t _ _ hnotmem hrest]
        exact hsc2
    · have ha' : a ∈ t := by
        rcases List.mem_cons.mp ha with h' | h'
        · exact absurd h'.symm hαa
        · exact h'
      have hx₂ : dget3 (dset scores α inner') a p u = some x := by
        rw [dget3_dset_ne hαa]
        exact hx
      exact ih _ _ x (List.nodup_cons.mp hnd).2 ha' hrest hx₂

/-! ### Claim C1: the sliding window on temporal ids `[1,3,5,7]`, `delta=5` -/

/-- Counterexample to C1 as stated: with temporal ids `[1, 3, 5, 7]` and
`delta = 5` the start `t = 1` satisfies `t + delta = 6 < 7 = tids[-1]`, so
one window *is* processed: on a one-node graph the key
`(alpha 1, profile "l", node 0)` receives the non-empty sequence
`[(6, 0)]`, not an empty one. -/
theorem claim_C1_counterexample :
    sliding_delta_conformity [1, 3, 5, 7] sliceOne oracleEmpty 5 [1] ["l"] 1 none =
      .ok [(1, [("l", [(0, [(6, 0)])])])] := by
  decide

/-- C1 (amended): over temporal ids `[1, 3, 5, 7]` with `delta = 5`, exactly
one window start is processed, `t = 1` (since `1 + 5 = 6 < 7` while
`3 + 5`, `5 + 5`, `7 + 5` are all `≥ 7`); the result is the single window's
`delta_conformity` scores appended at timestamp `6` (so the sequences are
not empty whenever the window succeeds and the snapshot has nodes). -/
theorem claim_C1 {V : Type} [DecidableEq V] (slice : ℤ → ℤ → Snapshot V)
    (oracle : ℤ → ℤ → List ((V × V) × ℕ)) (alphas : List ℤ) (labels : List String)
    (profileSize : ℕ) (hier : Hier) :
    sliding_delta_conformity [1, 3, 5, 7] slice oracle 5 alphas labels profileSize hier =
      (delta_conformity slice oracle 1 5 alphas labels profileSize hier).map
        (appendWindow [] 6) := by
  have hlast : lastTid [1, 3, 5, 7] = 7 := rfl
  rw [sliding_delta_conformity]
  simp only [List.foldlM_cons, List.foldlM_nil, hlast]
  norm_num
  cases hdc : delta_conformity slice oracle 1 5 alphas labels profileSize hier with
  | error e => simp [hdc, Bind.bind, Except.bind, Except.map]
  | ok d => simp [hdc, Bind.bind, Except.bind, Except.map, Pure.pure, Except.pure]

/-! ### Claim C9: shell accumulation is order-invariant -/

theorem dmod_dmod_ne {κ α : Type} [DecidableEq κ] {k k' : κ} (h : k ≠ k')
    (m : List (κ × α)) (f g : α → α) :
    dmod (dmod m k f) k' g = dmod (dmod m k' g) k f := by
  induction m with
  | nil => simp [dmod]
  | cons hd t ih =>
    obtain ⟨a, b⟩ := hd
    by_cases hak : a = k
    · subst hak
      simp [dmod, h]
    · by_cases hak' : a = k'
      · subst hak'
        simp [dmod, hak, Ne.symm h]
      · simp [dmod, hak, hak', ih]

theorem dmod_dmod_self {κ α : Type} [DecidableEq κ] (m : List (κ × α)) (k : κ)
    (f g : α → α) : dmod (dmod m k f) k g = dmod m k (fun x => g (f x)) := by
  induction m with
  | nil => simp [dmod]
  | cons hd t ih =>
    obtain ⟨a, b⟩ := hd
    by_cases hak : a = k
    · subst hak
      simp [dmod]
    · simp [dmod, hak, ih]

theorem dmod_comm_of_comm {κ α : Type} [DecidableEq κ] (m : List (κ × α)) (k k' : κ)
    (f g : α → α) (hcomm : k = k' → ∀ x, g (f x) = f (g x)) :
    dmod (dmod m k f) k' g = dmod (dmod m k' g) k f := by
  by_cases hk : k = k'
  · subst hk
    rw [dmod_dmod_self, dmod_dmod_self]
    congr 1
    funext x
    exact hcomm rfl x
  · exact dmod_dmod_ne hk m f g

theorem dmod3_add_comm {V : Type} [DecidableEq V] (r : Res V) (a1 a2 : ℤ)
    (p1 p2 : String) (n1 n2 : V) (x y : ℚ) :
    dmod3 (dmod3 r a1 p1 n1 (fun q => q + x)) a2 p2 n2 (fun q => q + y) =
      dmod3 (dmod3 r a2 p2 n2 (fun q => q + y)) a1 p1 n1 (fun q => q + x) := by
  unfold dmod3
  apply dmod_comm_of_comm
  intro _ inner
  apply dmod_comm_of_comm
  intro _ nd
  apply dmod_comm_of_comm
  intro _ q
  ring

theorem applyAdds_nil {V : Type} [DecidableEq V] (u : V) (r : Res V) :
    applyAdds [] u r = r := rfl

theorem applyAdds_cons {V : Type} [DecidableEq V] (t : (ℤ × String) × ℚ)
    (l : List ((ℤ × String) × ℚ)) (u : V) (r : Res V) :
    applyAdds (t :: l) u r =
      applyAdds l u (dmod3 r t.1.1 t.1.2 u (fun x => x + t.2)) := rfl

theorem applyAdds_append {V : Type} [DecidableEq V] (l1 l2 : List ((ℤ × String) × ℚ))
    (u : V) (r : Res V) :
    applyAdds (l1 ++ l2) u r = applyAdds l2 u (applyAdds l1 u r) := by
  simp [applyAdds, List.foldl_append]

theorem dmod3_applyAdds_comm {V : Type} [DecidableEq V] (u : V) (a : ℤ) (p : String)
    (n : V) (x : ℚ) : ∀ (l : List ((ℤ × String) × ℚ)) (r : Res V),
    dmod3 (applyAdds l u r) a p n (fun q => q + x) =
      applyAdds l u (dmod3 r a p n (fun q => q + x)) := by
  intro l
  induction l with
  | nil =>
    intro r
    rfl
  | cons t l ih =>
    intro r
    rw [applyAdds_cons, ih, dmod3_add_comm, applyAdds_cons]

theorem applyAdds_comm {V : Type} [DecidableEq V] (u : V) :
    ∀ (l1 l2 : List ((ℤ × String) × ℚ)) (r : Res V),
    applyAdds l1 u (applyAdds l2 u r) = applyAdds l2 u (applyAdds l1 u r) := by
  intro l1
  induction l1 with
  | nil =>
    intro l2 r
    rfl
  | cons t l1 ih =>
    intro l2 r
    rw [applyAdds_cons, dmod3_applyAdds_comm, ih]
    rw [applyAdds_cons]

theorem alphasFold_eq_applyAdds {V : Type} [DecidableEq V] (u : V) (alphas : List ℤ)
    (d : ℕ) (sim : ℚ) (p : List String) (r : Res V) :
    alphas.foldl (fun r' alpha => dmod3 r' alpha (joinKey p) u
        (fun x => x + sim / (d : ℚ) ^ alpha)) r =
      applyAdds (profUpds alphas d sim p) u r := by
  simp [applyAdds, profUpds, List.foldl_map]

theorem profStep_ok {V : Type} [DecidableEq V] {g : Snapshot V} {alphas : List ℤ}
    {hier : Hier} {u : V} {shellNodes : List V} {d : ℕ} {r m : Res V}
    {p : List String} (h : profStep g alphas hier u shellNodes d r p = .ok m) :
    ∃ sim, labelFrequency g u shellNodes p hier = .ok sim ∧
      simValAt g u shellNodes p hier = sim ∧
      m = applyAdds (profUpds alphas d sim p) u r := by
  unfold profStep at h
  obtain ⟨sim, hsim, hpure⟩ := exceptBind_ok h
  refine ⟨sim, hsim, by simp [simValAt, hsim], ?_⟩
  simp only [Pure.pure, Except.pure] at hpure
  rw [← Except.ok.inj hpure, alphasFold_eq_applyAdds]

theorem profFold_transfer {V : Type} [DecidableEq V] (g : Snapshot V) (alphas : List ℤ)
    (hier : Hier) (u : V) (shellNodes : List V) (d : ℕ) :
    ∀ (profiles : List (List String)) (res m : Res V),
    profiles.foldlM (profStep g alphas hier u shellNodes d) res = .ok m →
    (m = applyAdds ((profiles.map (fun p =>
        profUpds alphas d (simValAt g u shellNodes p hier) p)).flatten) u res ∧
      ∀ res', profiles.foldlM (profStep g alphas hier u shellNodes d) res' =
        .ok (applyAdds ((profiles.map (fun p =>
          profUpds alphas d (simValAt g u shellNodes p hier) p)).flatten) u res')) := by
  intro profiles
  induction profiles with
  | nil =>
    intro res m h
    rw [List.foldlM_nil] at h
    simp only [Pure.pure, Except.pure] at h
    refine ⟨?_, fun res' => ?_⟩
    · simpa using (Except.ok.inj h).symm
    · simp [List.foldlM_nil, applyAdds_nil, Pure.pure, Except.pure]
  | cons p ps ih =>
    intro res m h
    rw [List.foldlM_cons] at h
    obtain ⟨r₂, hstep, hrest⟩ := exceptBind_ok h
    obtain ⟨sim, hsim, hsimval, rfl⟩ := profStep_ok hstep
    obtain ⟨hm, htrans⟩ := ih _ _ hrest
    constructor
    · rw [List.map_cons, List.flatten_cons, applyAdds_append, hsimval]
      exact hm
    · intro res'
      rw [List.foldlM_cons]
      have hstep' : profStep g alphas hier u shellNodes d res' p =
          .ok (applyAdds (profUpds alphas d sim p) u res') := by
        unfold profStep
        rw [hsim]
        simp [Bind.bind, Except.bind, Pure.pure, Except.pure, alphasFold_eq_applyAdds]
      rw [hstep']
      have htr := htrans (applyAdds (profUpds alphas d sim p) u res')
      simp only [Bind.bind, Except.bind]
      rw [htr, List.map_cons, List.flatten_cons, applyAdds_append, hsimval]

theorem shellStep_transfer {V : Type} [DecidableEq V] {g : Snapshot V}
    {profiles : List (List String)} {alphas : List ℤ} {hier : Hier} {u : V}
    {res m : Res V} {s : ℕ × List V}
    (h : shellStep g profiles alphas hier u res s = .ok m) :
    m = applyAdds (shellUpds g profiles alphas hier u s) u res ∧
    ∀ res', shellStep g profiles alphas hier u res' s =
      .ok (applyAdds (shellUpds g profiles alphas hier u s) u res') := by
  by_cases hd : s.1 = 0
  · simp only [shellStep, hd, ne_eq, not_true_eq_false, if_false, Pure.pure,
      Except.pure] at h
    refine ⟨?_, fun res' => ?_⟩
    · simp [shellUpds, hd, applyAdds_nil]
      exact (Except.ok.inj h).symm
    · simp [shellStep, shellUpds, hd, applyAdds_nil, Pure.pure, Except.pure]
  · simp only [shellStep, hd, ne_eq, not_false_eq_true, if_true] at h
    obtain ⟨hm, htrans⟩ := profFold_transfer g alphas hier u s.2 s.1 profiles res m h
    refine ⟨?_, fun res' => ?_⟩
    · rw [hm]
      simp [shellUpds, hd]
    · simp only [shellStep, hd, ne_eq, not_false_eq_true, if_true]
      rw [htrans res']
      simp [shellUpds, hd]

/-- C9: the per-shell accumulation of lines 150–158 is order-invariant —
each shell's contribution (`sim / dist ** alpha` added for every
`(alpha, profile)`) is independent of every other shell's, so folding the
shells in any permuted order produces exactly the same result whenever the
original order succeeds (over the exact rational arithmetic of the model). -/
theorem claim_C9 {V : Type} [DecidableEq V] (g : Snapshot V)
    (profiles : List (List String)) (alphas : List ℤ) (hier : Hier) (u : V)
    {shells₁ shells₂ : List (ℕ × List V)} (hperm : shells₁.Perm shells₂) :
    ∀ (res r : Res V),
    shells₁.foldlM (shellStep g profiles alphas hier u) res = .ok r →
    shells₂.foldlM (shellStep g profiles alphas hier u) res = .ok r := by
  induction hperm with
  | nil =>
    intro res r h
    exact h
  | cons x hp ih =>
    intro res r h
    rw [List.foldlM_cons] at h ⊢
    obtain ⟨m, hm, hrest⟩ := exceptBind_ok h
    rw [hm]
    simp only [Bind.bind, Except.bind]
    exact ih _ _ hrest
  | swap x y l =>
    intro res r h
    rw [List.foldlM_cons] at h ⊢
    obtain ⟨m₁, hm₁, h2⟩ := exceptBind_ok h
    rw [List.foldlM_cons] at h2
    obtain ⟨m₂, hm₂, h3⟩ := exceptBind_ok h2
    obtain ⟨hm₁eq, htrans₁⟩ := shellStep_transfer hm₁
    obtain ⟨hm₂eq, htrans₂⟩ := shellStep_transfer hm₂
    rw [htrans₂ res]
    simp only [Bind.bind, Except.bind]
    rw [List.foldlM_cons,
      htrans₁ (applyAdds (shellUpds g profiles alphas hier u x) u res)]
    simp only [Bind.bind, Except.bind]
    rw [applyAdds_comm]
    rw [hm₂eq, hm₁eq] at h3
    exact h3
  | trans _ _ ih₁ ih₂ =>
    intro res r h
    exact ih₂ _ _ (ih₁ _ _ h)

/-- Witness for C9: over `gPair` with one profile and `alpha = 1`, the shell
list `[(1, [1]), (0, [0])]` and its permutation `[(0, [0]), (1, [1])]`
accumulate to the same result (node `0` gains `1/1¹ = 1`; the distance-`0`
shell is skipped). -/
theorem claim_C9_witness :
    [((1 : ℕ), [(1 : ℕ)]), (0, [0])].foldlM (shellStep gPair [["l"]] [1] none 0)
      [(1, [("l", [(0, 0), (1, 0)])])] = .ok [(1, [("l", [(0, 1), (1, 0)])])] ∧
    [((0 : ℕ), [(0 : ℕ)]), (1, [1])].foldlM (shellStep gPair [["l"]] [1] none 0)
      [(1, [("l", [(0, 0), (1, 0)])])] = .ok [(1, [("l", [(0, 1), (1, 0)])])] := by
  have h1 : [((1 : ℕ), [(1 : ℕ)]), (0, [0])].foldlM (shellStep gPair [["l"]] [1] none 0)
      [(1, [("l", [(0, 0), (1, 0)])])] = .ok [(1, [("l", [(0, 1), (1, 0)])])] := by
    simp [List.foldlM_cons, List.foldlM_nil, shellStep, profStep, labelFrequency,
      labelStep, shellTerm, sgnInd, fweight, dedupKeep, dget, dmod3, dmod, gPair,
      show joinKey ["l"] = "l" from rfl,
      List.mapM, List.mapM.loop, Bind.bind, Except.bind, Pure.pure, Except.pure]
  exact ⟨h1, claim_C9 gPair [["l"]] [1] none 0 (by decide) _ _ h1⟩

/-! ### Claim C4: key coverage and the zero default -/

theorem dget3_dmod3_isSome {V : Type} [DecidableEq V] (m : Res V) (a' a : ℤ)
    (p' p : String) (n' n : V) (f : ℚ → ℚ) :
    (dget3 (dmod3 m a' p' n' f) a p n).isSome = (dget3 m a p n).isSome := by
  unfold dget3 dmod3
  rw [dget_dmod]
  by_cases ha : a' = a
  · subst ha
    rw [if_pos rfl]
    cases hm : dget m a' with
    | none => rfl
    | some inner =>
      simp only [Option.map_some']
      rw [dget_dmod]
      by_cases hp : p' = p
      · subst hp
        rw [if_pos rfl]
        cases hi : dget inner p' with
        | none => rfl
        | some nd =>
          simp only [Option.map_some']
          rw [dget_dmod]
          by_cases hn : n' = n
          · subst hn
            rw [if_pos rfl]
            cases dget nd n' <;> rfl
          · rw [if_neg hn]
      · rw [if_neg hp]
  · rw [if_neg ha]

theorem dget3_dmod3_ne_node {V : Type} [DecidableEq V] (m : Res V) (a' a : ℤ)
    (p' p : String) (u n : V) (f : ℚ → ℚ) (hnu : u ≠ n) :
    dget3 (dmod3 m a' p' u f) a p n = dget3 m a p n := by
  unfold dget3 dmod3
  rw [dget_dmod]
  by_cases ha : a' = a
  · subst ha
    rw [if_pos rfl]
    cases hm : dget m a' with
    | none => rfl
    | some inner =>
      simp only [Option.map_some']
      rw [dget_dmod]
      by_cases hp : p' = p
      · subst hp
        rw [if_pos rfl]
        cases hi : dget inner p' with
        | none => rfl
        | some nd =>
          simp only [Option.map_some']
          rw [dget_dmod, if_neg hnu]
      · rw [if_neg hp]
  · rw [if_neg ha]

theorem dget3_applyAdds_isSome {V : Type} [DecidableEq V] (u : V) (a : ℤ) (p : String)
    (n : V) : ∀ (l : List ((ℤ × String) × ℚ)) (r : Res V),
    (dget3 (applyAdds l u r) a p n).isSome = (dget3 r a p n).isSome := by
  intro l
  induction l with
  | nil =>
    intro r
    rfl
  | cons t l ih =>
    intro r
    rw [applyAdds_cons, ih, dget3_dmod3_isSome]

theorem dget3_applyAdds_ne_node {V : Type} [DecidableEq V] (u : V) (a : ℤ) (p : String)
    (n : V) (hnu : u ≠ n) : ∀ (l : List ((ℤ × String) × ℚ)) (r : Res V),
    dget3 (applyAdds l u r) a p n = dget3 r a p n := by
  intro l
  induction l with
  | nil =>
    intro r
    rfl
  | cons t l ih =>
    intro r
    rw [applyAdds_cons, ih, dget3_dmod3_ne_node _ _ _ _ _ _ _ _ hnu]

theorem shellFold_isSome {V : Type} [DecidableEq V] (g : Snapshot V)
    (profiles : List (List String)) (alphas : List ℤ) (hier : Hier) (u : V) (a : ℤ)
    (p : String) (n : V) : ∀ (shells : List (ℕ × List V)) (res res' : Res V),
    shells.foldlM (shellStep g profiles alphas hier u) res = .ok res' →
    (dget3 res' a p n).isSome = (dget3 res a p n).isSome := by
  intro shells
  induction shells with
  | nil =>
    intro res res' h
    rw [List.foldlM_nil] at h
    simp only [Pure.pure, Except.pure] at h
    rw [Except.ok.inj h]
  | cons s t ih =>
    intro res res' h
    rw [List.foldlM_cons] at h
    obtain ⟨m, hm, hrest⟩ := exceptBind_ok h
    obtain ⟨hmeq, _⟩ := shellStep_transfer hm
    rw [ih _ _ hrest, hmeq, dget3_applyAdds_isSome]

theorem shellFold_ne_node {V : Type} [DecidableEq V] (g : Snapshot V)
    (profiles : List (List String)) (alphas : List ℤ) (hier : Hier) (u : V) (a : ℤ)
    (p : String) (n : V) (hnu : u ≠ n) : ∀ (shells : List (ℕ × List V)) (res res' : Res V),
    shells.foldlM (shellStep g profiles alphas hier u) res = .ok res' →
    dget3 res' a p n = dget3 res a p n := by
  intro shells
  induction shells with
  | nil =>
    intro res res' h
    rw [List.foldlM_nil] at h
    simp only [Pure.pure, Except.pure] at h
    rw [Except.ok.inj h]
  | cons s t ih =>
    intro res res' h
    rw [List.foldlM_cons] at h
    obtain ⟨m, hm, hrest⟩ := exceptBind_ok h
    obtain ⟨hmeq, _⟩ := shellStep_transfer hm
    rw [ih _ _ hrest, hmeq, dget3_applyAdds_ne_node _ _ _ _ hnu]

theorem normAlphaStep_isSome {V : Type} [DecidableEq V] {u : V} {maxd : ℕ}
    {sc sc' : Res V} {alpha : ℤ} (a : ℤ) (p : String) (n : V)
    (h : normAlphaStep u maxd sc alpha = .ok sc') :
    (dget3 sc' a p n).isSome = (dget3 sc a p n).isSome := by
  obtain ⟨inner, inner', hget, hmapm, rfl⟩ := normAlphaStep_ok h
  by_cases ha : alpha = a
  · subst ha
    have hrel := mapM_normEntry_dget u (normSum maxd alpha) inner inner' hmapm p
    simp only [dget3, dget_dset, eq_self_iff_true, if_true, hget, hrel]
    cases hi : dget inner p with
    | none => rfl
    | some nd =>
      simp only [Option.map_some']
      rw [dget_dset]
      by_cases hun : u = n
      · subst hun
        rw [if_pos rfl]
        obtain ⟨b, hb⟩ := mapM_ok_forall hmapm (p, nd) (dget_mem hi)
        obtain ⟨old, hold, _, _⟩ := normEntry_ok hb
        simp only [hold]
        rfl
      · rw [if_neg hun]
  · simp only [dget3, dget_dset, if_neg ha]

theorem normAlphaStep_ne_node {V : Type} [DecidableEq V] {u : V} {maxd : ℕ}
    {sc sc' : Res V} {alpha : ℤ} (a : ℤ) (p : String) (n : V) (hnu : u ≠ n)
    (h : normAlphaStep u maxd sc alpha = .ok sc') :
    dget3 sc' a p n = dget3 sc a p n := by
  obtain ⟨inner, inner', hget, hmapm, rfl⟩ := normAlphaStep_ok h
  by_cases ha : alpha = a
  · subst ha
    have hrel := mapM_normEntry_dget u (normSum maxd alpha) inner inner' hmapm p
    simp only [dget3, dget_dset, eq_self_iff_true, if_true, hget, hrel]
    cases hi : dget inner p with
    | none => rfl
    | some nd =>
      simp only [Option.map_some']
      rw [dget_dset, if_neg hnu]
  · simp only [dget3, dget_dset, if_neg ha]

theorem normalizeScores_isSome {V : Type} [DecidableEq V] (u : V) (maxd : ℕ) (a : ℤ)
    (p : String) (n : V) : ∀ (alphas : List ℤ) (sc sc' : Res V),
    normalizeScores u sc maxd alphas = .ok sc' →
    (dget3 sc' a p n).isSome = (dget3 sc a p n).isSome := by
  intro alphas
  induction alphas with
  | nil =>
    intro sc sc' h
    rw [normalizeScores, List.foldlM_nil] at h
    simp only [Pure.pure, Except.pure] at h
    rw [Except.ok.inj h]
  | cons α t ih =>
    intro sc sc' h
    rw [normalizeScores, List.foldlM_cons] at h
    obtain ⟨sc₂, hstep, hrest⟩ := exceptBind_ok h
    rw [ih _ _ hrest, normAlphaStep_isSome a p n hstep]

theorem normalizeScores_ne_node {V : Type} [DecidableEq V] (u : V) (maxd : ℕ) (a : ℤ)
    (p : String) (n : V) (hnu : u ≠ n) : ∀ (alphas : List ℤ) (sc sc' : Res V),
    normalizeScores u sc maxd alphas = .ok sc' →
    dget3 sc' a p n = dget3 sc a p n := by
  intro alphas
  induction alphas with
  | nil =>
    intro sc sc' h
    rw [normalizeScores, List.foldlM_nil] at h
    simp only [Pure.pure, Except.pure] at h
    rw [Except.ok.inj h]
  | cons α t ih =>
    intro sc sc' h
    rw [normalizeScores, List.foldlM_cons] at h
    obtain ⟨sc₂, hstep, hrest⟩ := exceptBind_ok h
    rw [ih _ _ hrest, normAlphaStep_ne_node a p n hnu hstep]

theorem nodeStep_ok {V : Type} [DecidableEq V] {g : Snapshot V}
    {dists : List ((V × V) × ℕ)} {profiles : List (List String)} {alphas : List ℤ}
    {hier : Hier} {res res₂ : Res V} {u : V}
    (h : nodeStep g dists profiles alphas hier res u = .ok res₂) :
    ∃ res', (groupByDist (buildNodeDist dists u)).foldlM
        (shellStep g profiles alphas hier u) res = .ok res' ∧
      (((groupByDist (buildNodeDist dists u)).length > 0 ∧
        normalizeScores u res'
          (maxKey ((groupByDist (buildNodeDist dists u)).map Prod.fst)) alphas =
          .ok res₂) ∨
       ((groupByDist (buildNodeDist dists u)).length = 0 ∧ res₂ = res')) := by
  unfold nodeStep at h
  obtain ⟨res', hfold, hrest⟩ := exceptBind_ok h
  refine ⟨res', hfold, ?_⟩
  by_cases hlen : (groupByDist (buildNodeDist dists u)).length > 0
  · rw [if_pos hlen] at hrest
    exact Or.inl ⟨hlen, hrest⟩
  · rw [if_neg hlen] at hrest
    simp only [Pure.pure, Except.pure] at hrest
    exact Or.inr ⟨by omega, (Except.ok.inj hrest).symm⟩

theorem nodeStep_isSome {V : Type} [DecidableEq V] {g : Snapshot V}
    {dists : List ((V × V) × ℕ)} {profiles : List (List String)} {alphas : List ℤ}
    {hier : Hier} {res res₂ : Res V} {u : V} (a : ℤ) (p : String) (n : V)
    (h : nodeStep g dists profiles alphas hier res u = .ok res₂) :
    (dget3 res₂ a p n).isSome = (dget3 res a p n).isSome := by
  obtain ⟨mid, hfold, hrest⟩ := nodeStep_ok h
  rcases hrest with ⟨_, hnrm⟩ | ⟨_, rfl⟩
  · rw [normalizeScores_isSome u _ a p n alphas mid res₂ hnrm,
      shellFold_isSome g profiles alphas hier u a p n _ res mid hfold]
  · exact shellFold_isSome g profiles alphas hier u a p n _ res res₂ hfold

theorem nodeStep_ne_node {V : Type} [DecidableEq V] {g : Snapshot V}
    {dists : List ((V × V) × ℕ)} {profiles : List (List String)} {alphas : List ℤ}
    {hier : Hier} {res res₂ : Res V} {u : V} (a : ℤ) (p : String) (n : V) (hnu : u ≠ n)
    (h : nodeStep g dists profiles alphas hier res u = .ok res₂) :
    dget3 res₂ a p n = dget3 res a p n := by
  obtain ⟨mid, hfold, hrest⟩ := nodeStep_ok h
  rcases hrest with ⟨_, hnrm⟩ | ⟨_, rfl⟩
  · rw [normalizeScores_ne_node u _ a p n hnu alphas mid res₂ hnrm,
      shellFold_ne_node g profiles alphas hier u a p n hnu _ res mid hfold]
  · exact shellFold_ne_node g profiles alphas hier u a p n hnu _ res res₂ hfold

theorem mapM_ne_ok_of_error {α β : Type} {f : α → Except String β} {l : List α} {x : α}
    {e : String} (hx : x ∈ l) (hfx : f x = .error e) {r : List β} :
    l.mapM f ≠ .ok r := by
  intro h
  obtain ⟨b, hb⟩ := mapM_ok_forall h x hx
  rw [hfx] at hb
  exact Except.noConfusion hb

theorem mem_dset {κ α : Type} [DecidableEq κ] {k : κ} {v : α} {e : κ × α} :
    ∀ {m : List (κ × α)}, e ∈ dset m k v → e ∈ m ∨ e = (k, v) := by
  intro m
  induction m with
  | nil =>
    intro he
    simp [dset] at he
    exact Or.inr he
  | cons hd t ih =>
    obtain ⟨a, b⟩ := hd
    intro he
    by_cases hak : a = k
    · subst hak
      simp only [dset, if_pos rfl] at he
      rcases List.mem_cons.mp he with rfl | ht
      · exact Or.inr rfl
      · exact Or.inl (List.mem_cons_of_mem _ ht)
    · simp only [dset, if_neg hak] at he
      rcases List.mem_cons.mp he with rfl | ht
      · exact Or.inl (by simp)
      · rcases ih ht with h | h
        · exact Or.inl (List.mem_cons_of_mem _ h)
        · exact Or.inr h

theorem mem_dalter {κ α : Type} [DecidableEq κ] {k : κ} {dflt : α} {f : α → α}
    {e : κ × α} : ∀ {m : List (κ × α)}, e ∈ dalter m k dflt f → e ∈ m ∨ e.1 = k := by
  intro m
  induction m with
  | nil =>
    intro he
    simp [dalter] at he
    exact Or.inr (by rw [he])
  | cons hd t ih =>
    obtain ⟨a, b⟩ := hd
    intro he
    by_cases hak : a = k
    · subst hak
      simp only [dalter, if_pos rfl] at he
      rcases List.mem_cons.mp he with rfl | ht
      · exact Or.inr rfl
      · exact Or.inl (List.mem_cons_of_mem _ ht)
    · simp only [dalter, if_neg hak] at he
      rcases List.mem_cons.mp he with rfl | ht
      · exact Or.inl (by simp)
      · rcases ih ht with h | h
        · exact Or.inl (List.mem_cons_of_mem _ h)
        · exact Or.inr h

theorem buildNodeDist_all_zero {V : Type} [DecidableEq V] (n : V) :
    ∀ (dists : List ((V × V) × ℕ)) (m0 : List (V × ℕ)),
    (∀ pr ∈ dists, pr.1.1 = n → pr.2 = 0) → (∀ e ∈ m0, e.2 = 0) →
    ∀ e ∈ dists.foldl (fun m pr => if pr.1.1 = n then dset m pr.1.2 pr.2 else m) m0,
      e.2 = 0 := by
  intro dists
  induction dists with
  | nil =>
    intro m0 _ hm0
    simpa using hm0
  | cons pr t ih =>
    intro m0 hz hm0
    rw [List.foldl_cons]
    apply ih _ (fun q hq hq1 => hz q (List.mem_cons_of_mem _ hq) hq1)
    by_cases hpr : pr.1.1 = n
    · rw [if_pos hpr]
      intro e he
      rcases mem_dset he with h | rfl
      · exact hm0 e h
      · exact hz pr (by simp) hpr
    · rw [if_neg hpr]
      exact hm0

theorem groupByDist_all_zero {V : Type} [DecidableEq V] :
    ∀ (spu : List (V × ℕ)) (m0 : List (ℕ × List V)),
    (∀ e ∈ spu, e.2 = 0) → (∀ q ∈ m0, q.1 = 0) →
    ∀ q ∈ spu.foldl (fun m pr => dappend m pr.2 pr.1) m0, q.1 = 0 := by
  intro spu
  induction spu with
  | nil =>
    intro m0 _ hm0
    simpa using hm0
  | cons e t ih =>
    intro m0 hz hm0
    rw [List.foldl_cons]
    apply ih _ (fun q hq => hz q (List.mem_cons_of_mem _ hq))
    intro q hq
    rcases mem_dalter hq with h | h
    · exact hm0 q h
    · rw [h]
      exact hz e (by simp)

theorem shellFold_zero_keys {V : Type} [DecidableEq V] (g : Snapshot V)
    (profiles : List (List String)) (alphas : List ℤ) (hier : Hier) (u : V) :
    ∀ (shells : List (ℕ × List V)), (∀ q ∈ shells, q.1 = 0) → ∀ (res : Res V),
    shells.foldlM (shellStep g profiles alphas hier u) res = .ok res := by
  intro shells
  induction shells with
  | nil =>
    intro _ res
    rfl
  | cons s t ih =>
    intro hz res
    rw [List.foldlM_cons]
    have hs : shellStep g profiles alphas hier u res s = .ok res := by
      have h0 : s.1 = 0 := hz s (by simp)
      simp [shellStep, h0, Pure.pure, Except.pure]
    rw [hs]
    simp only [Bind.bind, Except.bind]
    exact ih (fun q hq => hz q (List.mem_cons_of_mem _ hq)) res

theorem maxKey_all_zero : ∀ (l : List ℕ), (∀ k ∈ l, k = 0) → maxKey l = 0 := by
  intro l
  induction l with
  | nil =>
    intro _
    rfl
  | cons k t ih =>
    intro hz
    have hk : k = 0 := hz k (by simp)
    subst hk
    have : maxKey (0 :: t) = maxKey t := by
      simp [maxKey]
    rw [this]
    exact ih (fun q hq => hz q (List.mem_cons_of_mem _ hq))

theorem normSum_zero (a : ℤ) : normSum 0 a = 0 := by
  simp [normSum]

theorem normalizeScores_zero_not_ok {V : Type} [DecidableEq V] (n : V) (a : ℤ)
    (p : String) : ∀ (alphas : List ℤ) (sc : Res V) (x : ℚ), a ∈ alphas →
    dget3 sc a p n = some x → ∀ sc', normalizeScores n sc 0 alphas ≠ .ok sc' := by
  intro alphas
  induction alphas with
  | nil =>
    intro sc x ha
    simp at ha
  | cons α t ih =>
    intro sc x ha hx sc' h
    rw [normalizeScores, List.foldlM_cons] at h
    obtain ⟨sc₂, hstep, hrest⟩ := exceptBind_ok h
    obtain ⟨inner, inner', hget, hmapm, rfl⟩ := normAlphaStep_ok hstep
    by_cases hαa : α = a
    · subst hαa
      simp only [dget3, hget] at hx
      cases hi : dget inner p with
      | none =>
        simp only [hi] at hx
        exact Option.noConfusion hx
      | some nd =>
        simp only [hi] at hx
        have hmem : (p, nd) ∈ inner := dget_mem hi
        have herr : normEntry n (normSum 0 α) (p, nd) = .error "ZeroDivisionError" := by
          rw [normSum_zero]
          exact normEntry_error_of_norm_zero hx
        exact (mapM_ne_ok_of_error hmem herr) hmapm
    · have ha' : a ∈ t := by
        rcases List.mem_cons.mp ha with h' | h'
        · exact absurd h'.symm hαa
        · exact h'
      have hx₂ : dget3 (dset sc α inner') a p n = some x := by
        rw [dget3_dset_ne hαa]
        exact hx
      exact ih _ x ha' hx₂ sc' hrest

theorem nodeFold_isSome {V : Type} [DecidableEq V] (g : Snapshot V)
    (dists : List ((V × V) × ℕ)) (profiles : List (List String)) (alphas : List ℤ)
    (hier : Hier) (a : ℤ) (p : String) (n : V) :
    ∀ (us : List V) (res res' : Res V),
    us.foldlM (nodeStep g dists profiles alphas hier) res = .ok res' →
    (dget3 res' a p n).isSome = (dget3 res a p n).isSome := by
  intro us
  induction us with
  | nil =>
    intro res res' h
    rw [List.foldlM_nil] at h
    simp only [Pure.pure, Except.pure] at h
    rw [Except.ok.inj h]
  | cons u t ih =>
    intro res res' h
    rw [List.foldlM_cons] at h
    obtain ⟨res₂, hstep, hrest⟩ := exceptBind_ok h
    rw [ih _ _ hrest, nodeStep_isSome a p n hstep]

theorem nodeFold_zero {V : Type} [DecidableEq V] (g : Snapshot V)
    (dists : List ((V × V) × ℕ)) (profiles : List (List String)) (alphas : List ℤ)
    (hier : Hier) (a : ℤ) (p : String) (n : V)
    (hz : ∀ pr ∈ dists, pr.1.1 = n → pr.2 = 0) (ha : a ∈ alphas) :
    ∀ (us : List V) (res res' : Res V), dget3 res a p n = some 0 →
    us.foldlM (nodeStep g dists profiles alphas hier) res = .ok res' →
    dget3 res' a p n = some 0 := by
  intro us
  induction us with
  | nil =>
    intro res res' h0 h
    rw [List.foldlM_nil] at h
    simp only [Pure.pure, Except.pure] at h
    rw [← Except.ok.inj h]
    exact h0
  | cons u t ih =>
    intro res res' h0 h
    rw [List.foldlM_cons] at h
    obtain ⟨res₂, hstep, hrest⟩ := exceptBind_ok h
    by_cases hun : u = n
    · subst hun
      obtain ⟨mid, hfold, hcases⟩ := nodeStep_ok hstep
      have hvals : ∀ e ∈ buildNodeDist dists u, e.2 = 0 :=
        buildNodeDist_all_zero u dists [] hz (by simp)
      have hkeys : ∀ q ∈ groupByDist (buildNodeDist dists u), q.1 = 0 :=
        groupByDist_all_zero (buildNodeDist dists u) [] hvals (by simp)
      have hfold_id : (groupByDist (buildNodeDist dists u)).foldlM
          (shellStep g profiles alphas hier u) res = .ok res :=
        shellFold_zero_keys g profiles alphas hier u _ hkeys res
      have hmid : mid = res := by
        rw [hfold] at hfold_id
        exact Except.ok.inj hfold_id
      rcases hcases with ⟨_, hnrm⟩ | ⟨_, rfl⟩
      · have hmax : maxKey ((groupByDist (buildNodeDist dists u)).map Prod.fst) = 0 := by
          apply maxKey_all_zero
          intro k hk
          obtain ⟨q, hq, rfl⟩ := List.mem_map.mp hk
          exact hkeys q hq
        rw [hmax, hmid] at hnrm
        exact absurd hnrm (normalizeScores_zero_not_ok u a p alphas res 0 ha h0 res₂)
      · subst hmid
        exact ih _ _ h0 hrest
    · have hpres := nodeStep_ne_node a p n hun hstep
      exact ih _ _ (by rw [hpres]; exact h0) hrest

theorem initRes_dget3 {V : Type} [DecidableEq V] {alphas : List ℤ} {pkeys : List String}
    {ns : List V} {a : ℤ} {pk : String} {n : V} (ha : a ∈ alphas) (hp : pk ∈ pkeys)
    (hn : n ∈ ns) : dget3 (initRes alphas pkeys ns) a pk n = some 0 := by
  simp [initRes, dget3, dget_foldl_dset_const, ha, hp, hn]

theorem delta_conformity_ok {V : Type} [DecidableEq V] {slice : ℤ → ℤ → Snapshot V}
    {oracle : ℤ → ℤ → List ((V × V) × ℕ)} {start delta : ℤ} {alphas : List ℤ}
    {labels : List String} {profileSize : ℕ} {hier : Hier} {res : Res V}
    (h : delta_conformity slice oracle start delta alphas labels profileSize hier =
      .ok res) :
    (slice start (start + delta)).nodes.foldlM
      (nodeStep (slice start (start + delta)) (oracle start (delta + start))
        (profilesOf labels profileSize) alphas hier)
      (initRes alphas ((profilesOf labels profileSize).map joinKey)
        (slice start (start + delta)).nodes) = .ok res := by
  unfold delta_conformity at h
  by_cases h1 : profileSize > labels.length
  · rw [if_pos h1] at h
    exact Except.noConfusion h
  · rw [if_neg h1] at h
    by_cases h2 : alphas.length < 1 ∨ labels.length < 1
    · rw [if_pos h2] at h
      exact Except.noConfusion h
    · rw [if_neg h2] at h
      exact h

/-- C4: whenever `delta_conformity` returns normally, the result has an entry
for every node of the snapshot under every alpha key and every generated
profile key, and a node all of whose oracle distances are `0` (no reachable
node at positive distance in the window) keeps score exactly `0` for every
`(alpha, profile)`. -/
theorem claim_C4 {V : Type} [DecidableEq V] (slice : ℤ → ℤ → Snapshot V)
    (oracle : ℤ → ℤ → List ((V × V) × ℕ)) (start delta : ℤ) (alphas : List ℤ)
    (labels : List String) (profileSize : ℕ) (hier : Hier) (res : Res V) (a : ℤ)
    (p : List String) (n : V)
    (h : delta_conformity slice oracle start delta alphas labels profileSize hier =
      .ok res)
    (ha : a ∈ alphas) (hp : p ∈ profilesOf labels profileSize)
    (hn : n ∈ (slice start (start + delta)).nodes) :
    ∃ x, dget3 res a (joinKey p) n = some x ∧
      ((∀ pr ∈ oracle start (delta + start), pr.1.1 = n → pr.2 = 0) → x = 0) := by
  have hfold := delta_conformity_ok h
  have hinit : dget3 (initRes alphas ((profilesOf labels profileSize).map joinKey)
      (slice start (start + delta)).nodes) a (joinKey p) n = some 0 :=
    initRes_dget3 ha (List.mem_map_of_mem _ hp) hn
  have hsome : (dget3 res a (joinKey p) n).isSome = true := by
    rw [nodeFold_isSome _ _ _ _ _ a (joinKey p) n _ _ _ hfold, hinit]
    rfl
  obtain ⟨x, hx⟩ := Option.isSome_iff_exists.mp hsome
  refine ⟨x, hx, fun hz => ?_⟩
  have h0 := nodeFold_zero _ _ _ _ _ a (joinKey p) n hz ha _ _ _ hinit hfold
  rw [hx] at h0
  exact Option.some.inj h0

/-- Witness for C4: on the one-node snapshot with an empty path oracle,
`delta_conformity` succeeds and node `0` — having no reachable node at
positive distance — scores exactly `0` under alpha `1` and profile `"l"`. -/
theorem claim_C4_witness :
    dget3 (V := ℕ) [(1, [("l", [(0, 0)])])] 1 (joinKey ["l"]) 0 = some 0 := by
  obtain ⟨x, hx, hz⟩ := claim_C4 sliceOne oracleEmpty 1 5 [1] ["l"] 1 none
    [(1, [("l", [(0, 0)])])] 1 ["l"] 0 (by decide) (by simp)
    (by simp [profilesOf, combinationsList, List.range']) (by simp [sliceOne])
  have hx0 : x = 0 := hz (by simp [oracleEmpty])
  rw [hx0] at hx
  exact hx

/-! ### Claim C5: per-node normalization inside `delta_conformity` -/

theorem dget3_dmod3_same_node {V : Type} [DecidableEq V] (m : Res V) (a' a : ℤ)
    (p' p : String) (n : V) (f : ℚ → ℚ) :
    dget3 (dmod3 m a' p' n f) a p n =
      if a' = a ∧ p' = p then Option.map f (dget3 m a p n) else dget3 m a p n := by
  by_cases ha : a' = a
  · subst ha
    by_cases hp : p' = p
    · subst hp
      rw [if_pos ⟨rfl, rfl⟩]
      unfold dget3 dmod3
      rw [dget_dmod, if_pos rfl]
      cases hm : dget m a' with
      | none => rfl
      | some inner =>
        simp only [Option.map_some']
        rw [dget_dmod, if_pos rfl]
        cases hi : dget inner p' with
        | none => rfl
        | some nd =>
          simp only [Option.map_some']
          rw [dget_dmod, if_pos rfl]
    · rw [if_neg (fun hh => hp hh.2)]
      unfold dget3 dmod3
      rw [dget_dmod, if_pos rfl]
      cases hm : dget m a' with
      | none => rfl
      | some inner =>
        simp only [Option.map_some']
        rw [dget_dmod, if_neg hp]
  · rw [if_neg (fun hh => ha hh.1)]
    unfold dget3 dmod3
    rw [dget_dmod, if_neg ha]

theorem applyAdds_shift {V : Type} [DecidableEq V] (u : V) (a : ℤ) (pk : String) :
    ∀ (l : List ((ℤ × String) × ℚ)), ∃ S : ℚ, ∀ (r : Res V),
    dget3 (applyAdds l u r) a pk u = (dget3 r a pk u).map (fun q => q + S) := by
  intro l
  induction l with
  | nil =>
    refine ⟨0, fun r => ?_⟩
    rw [applyAdds_nil]
    cases dget3 r a pk u <;> simp
  | cons t l ih =>
    obtain ⟨S, hS⟩ := ih
    by_cases hk : t.1.1 = a ∧ t.1.2 = pk
    · refine ⟨t.2 + S, fun r => ?_⟩
      rw [applyAdds_cons, hS, dget3_dmod3_same_node, if_pos hk]
      cases dget3 r a pk u with
      | none => rfl
      | some q =>
        simp [add_assoc]
    · refine ⟨S, fun r => ?_⟩
      rw [applyAdds_cons, hS, dget3_dmod3_same_node, if_neg hk]

theorem shellFold_transfer {V : Type} [DecidableEq V] (g : Snapshot V)
    (profiles : List (List String)) (alphas : List ℤ) (hier : Hier) (u : V) :
    ∀ (shells : List (ℕ × List V)) (res m : Res V),
    shells.foldlM (shellStep g profiles alphas hier u) res = .ok m →
    ∃ l, m = applyAdds l u res ∧ ∀ res',
      shells.foldlM (shellStep g profiles alphas hier u) res' =
        .ok (applyAdds l u res') := by
  intro shells
  induction shells with
  | nil =>
    intro res m h
    rw [List.foldlM_nil] at h
    simp only [Pure.pure, Except.pure] at h
    refine ⟨[], (Except.ok.inj h).symm, fun res' => ?_⟩
    rw [List.foldlM_nil]
    rfl
  | cons s t ih =>
    intro res m h
    rw [List.foldlM_cons] at h
    obtain ⟨r₂, hstep, hrest⟩ := exceptBind_ok h
    obtain ⟨hr₂, htrans⟩ := shellStep_transfer hstep
    obtain ⟨l, hm, htr⟩ := ih _ _ hrest
    refine ⟨shellUpds g profiles alphas hier u s ++ l, ?_, fun res' => ?_⟩
    · rw [applyAdds_append, ← hr₂]
      exact hm
    · rw [List.foldlM_cons, htrans res']
      simp only [Bind.bind, Except.bind]
      rw [applyAdds_append]
      exact htr (applyAdds (shellUpds g profiles alphas hier u s) u res')

theorem nodeFold_ne_node {V : Type} [DecidableEq V] (g : Snapshot V)
    (dists : List ((V × V) × ℕ)) (profiles : List (List String)) (alphas : List ℤ)
    (hier : Hier) (a : ℤ) (p : String) (n : V) :
    ∀ (us : List V), n ∉ us → ∀ (res res' : Res V),
    us.foldlM (nodeStep g dists profiles alphas hier) res = .ok res' →
    dget3 res' a p n = dget3 res a p n := by
  intro us
  induction us with
  | nil =>
    intro _ res res' h
    rw [List.foldlM_nil] at h
    simp only [Pure.pure, Except.pure] at h
    rw [Except.ok.inj h]
  | cons u t ih =>
    intro hmem res res' h
    rw [List.foldlM_cons] at h
    obtain ⟨res₂, hstep, hrest⟩ := exceptBind_ok h
    have hun : u ≠ n := fun hh => hmem (hh ▸ List.mem_cons_self _ _)
    rw [ih (fun hh => hmem (List.mem_cons_of_mem _ hh)) _ _ hrest,
      nodeStep_ne_node a p n hun hstep]

/-- C5: end-to-end through `delta_conformity`: for every node `u` of a
successful run that observed at least one shell, the score of `u` in the
returned map under `(alpha, profile)` equals `u`'s own unnormalized
accumulator `x` (the value its shell fold produces over the initialized
result, identical to the value accumulated in the run because shell
contributions do not depend on the shared accumulator) divided by
`norm = Σ_{k=1}^{D} k^(-alpha)`, where `D = max(sp.keys())` is the maximum
key of `u`'s own shell map built from `u`'s own oracle rows — the divisor
is per-node, a function of `u`, not a global maximum; in particular for
`alpha = 1` and maximum distance `3` the divisor is `1 + 1/2 + 1/3 = 11/6`. -/
theorem claim_C5 {V : Type} [DecidableEq V] (slice : ℤ → ℤ → Snapshot V)
    (oracle : ℤ → ℤ → List ((V × V) × ℕ)) (start delta : ℤ) (alphas : List ℤ)
    (labels : List String) (profileSize : ℕ) (hier : Hier) (res acc : Res V) (a : ℤ)
    (p : List String) (u : V) (x : ℚ)
    (h : delta_conformity slice oracle start delta alphas labels profileSize hier =
      .ok res)
    (hnd : alphas.Nodup) (ha : a ∈ alphas) (hp : p ∈ profilesOf labels profileSize)
    (hnodes : (slice start (start + delta)).nodes.Nodup)
    (hu : u ∈ (slice start (start + delta)).nodes)
    (hne : groupByDist (buildNodeDist (oracle start (delta + start)) u) ≠ [])
    (hacc : (groupByDist (buildNodeDist (oracle start (delta + start)) u)).foldlM
        (shellStep (slice start (start + delta)) (profilesOf labels profileSize)
          alphas hier u)
        (initRes alphas ((profilesOf labels profileSize).map joinKey)
          (slice start (start + delta)).nodes) = .ok acc)
    (hx : dget3 acc a (joinKey p) u = some x) :
    dget3 res a (joinKey p) u = some (x / normSum
        (maxKey ((groupByDist (buildNodeDist (oracle start (delta + start)) u)).map
          Prod.fst)) a) ∧
      normSum 3 1 = 11/6 := by
  refine ⟨?_, by norm_num [normSum, List.range']⟩
  have hfold := delta_conformity_ok h
  obtain ⟨s, t, hsplit⟩ := List.append_of_mem hu
  rw [hsplit] at hfold hnodes hacc
  obtain ⟨hs_nd, hut_nd, hdisj⟩ := List.nodup_append.mp hnodes
  have hu_not_t : u ∉ t := (List.nodup_cons.mp hut_nd).1
  have hu_not_s : u ∉ s := fun hh => hdisj hh (List.mem_cons_self _ _)
  rw [List.foldlM_append] at hfold
  obtain ⟨res_pre, hpre, hrest1⟩ := exceptBind_ok hfold
  rw [List.foldlM_cons] at hrest1
  obtain ⟨res_mid, hstep, hrest2⟩ := exceptBind_ok hrest1
  have hinit : dget3 (initRes alphas ((profilesOf labels profileSize).map joinKey)
      (s ++ u :: t)) a (joinKey p) u = some 0 :=
    initRes_dget3 ha (List.mem_map_of_mem _ hp) (by simp)
  have hpre_val : dget3 res_pre a (joinKey p) u = some 0 := by
    rw [nodeFold_ne_node _ _ _ _ _ a (joinKey p) u s hu_not_s _ _ hpre, hinit]
  obtain ⟨mid, hfold_u, hcases⟩ := nodeStep_ok hstep
  obtain ⟨l, hacc_eq, htr⟩ := shellFold_transfer _ _ _ _ u _ _ _ hacc
  have hmid_eq : mid = applyAdds l u res_pre := by
    rw [htr res_pre] at hfold_u
    exact (Except.ok.inj hfold_u).symm
  obtain ⟨S, hS⟩ := applyAdds_shift u a (joinKey p) l
  have hSx : 0 + S = x := by
    rw [hacc_eq, hS _, hinit] at hx
    simp only [Option.map_some'] at hx
    exact Option.some.inj hx
  have hmid_val : dget3 mid a (joinKey p) u = some x := by
    rw [hmid_eq, hS res_pre, hpre_val]
    simp only [Option.map_some']
    rw [hSx]
  rcases hcases with ⟨_, hnrm⟩ | ⟨hlen0, _⟩
  · have hfinal := normalizeScores_get u
      (maxKey ((groupByDist (buildNodeDist (oracle start (delta + start)) u)).map
        Prod.fst)) a (joinKey p) alphas mid res_mid x hnd ha hnrm hmid_val
    rw [nodeFold_ne_node _ _ _ _ _ a (joinKey p) u t hu_not_t _ _ hrest2]
    exact hfinal
  · exact absurd (List.length_eq_zero.mp hlen0) hne

/-- Witness for C5 on the path `0 – 1 – 2` of `gChain`: the endpoint `0`
accumulates `3/2` over its shells `{1 ↦ [1], 2 ↦ [2]}` and is divided by
its own `normSum 2 1 = 3/2`, while the middle node `1` accumulates `1` over
its single shell `{1 ↦ [0, 2]}` and is divided by its own `normSum 1 1 = 1`
— two different per-node divisors inside one `delta_conformity` run. -/
theorem claim_C5_witness :
    dget3 (V := ℕ) [(1, [("l", [(0, 1), (1, 1), (2, 1)])])] 1 (joinKey ["l"]) 0 =
      some ((3/2 : ℚ) / normSum 2 1) ∧
    dget3 (V := ℕ) [(1, [("l", [(0, 1), (1, 1), (2, 1)])])] 1 (joinKey ["l"]) 1 =
      some ((1 : ℚ) / normSum 1 1) ∧
    normSum 3 1 = 11/6 := by
  have hdc : delta_conformity sliceChain oracleChain 1 5 [1] ["l"] 1 none =
      .ok [(1, [("l", [(0, 1), (1, 1), (2, 1)])])] := by
    norm_num [delta_conformity, nodeStep, shellStep, profStep, labelFrequency, labelStep,
      shellTerm, sgnInd, fweight, dedupKeep, normalizeScores, normAlphaStep, normEntry,
      normSum, maxKey, buildNodeDist, groupByDist, dappend, dalter, initRes, dget, dset,
      dmod3, dmod, profilesOf, combinationsList, List.range', sliceChain, oracleChain,
      gChain, show joinKey ["l"] = "l" from rfl, List.foldlM, List.mapM, List.mapM.loop,
      List.map, List.sum_cons, List.sum_nil, List.singleton,
      Bind.bind, Except.bind, Pure.pure, Except.pure]
  have hacc0 : (groupByDist (buildNodeDist (oracleChain 1 (5 + 1)) 0)).foldlM
      (shellStep (sliceChain 1 (1 + 5)) (profilesOf ["l"] 1) [1] none 0)
      (initRes [1] ((profilesOf ["l"] 1).map joinKey) (sliceChain 1 (1 + 5)).nodes) =
      .ok [(1, [("l", [(0, 3/2), (1, 0), (2, 0)])])] := by
    norm_num [shellStep, profStep, labelFrequency, labelStep,
      shellTerm, sgnInd, fweight, dedupKeep, buildNodeDist, groupByDist, dappend, dalter,
      initRes, dget, dset, dmod3, dmod, profilesOf, combinationsList, List.range',
      sliceChain, oracleChain, gChain, show joinKey ["l"] = "l" from rfl,
      List.foldlM, List.mapM, List.mapM.loop, List.map, List.sum_cons, List.sum_nil,
      List.singleton, Bind.bind, Except.bind, Pure.pure, Except.pure]
  have hacc1 : (groupByDist (buildNodeDist (oracleChain 1 (5 + 1)) 1)).foldlM
      (shellStep (sliceChain 1 (1 + 5)) (profilesOf ["l"] 1) [1] none 1)
      (initRes [1] ((profilesOf ["l"] 1).map joinKey) (sliceChain 1 (1 + 5)).nodes) =
      .ok [(1, [("l", [(0, 0), (1, 1), (2, 0)])])] := by
    norm_num [shellStep, profStep, labelFrequency, labelStep,
      shellTerm, sgnInd, fweight, dedupKeep, buildNodeDist, groupByDist, dappend, dalter,
      initRes, dget, dset, dmod3, dmod, profilesOf, combinationsList, List.range',
      sliceChain, oracleChain, gChain, show joinKey ["l"] = "l" from rfl,
      List.foldlM, List.mapM, List.mapM.loop, List.map, List.sum_cons, List.sum_nil,
      List.singleton, Bind.bind, Except.bind, Pure.pure, Except.pure]
  have h0 := claim_C5 sliceChain oracleChain 1 5 [1] ["l"] 1 none
    [(1, [("l", [(0, 1), (1, 1), (2, 1)])])] [(1, [("l", [(0, 3/2), (1, 0), (2, 0)])])]
    1 ["l"] 0 (3/2) hdc (by simp) (by simp) (by decide)
    (by simp [sliceChain, gChain]) (by simp [sliceChain, gChain]) (by decide) hacc0
    (by simp [dget3, dget, show joinKey ["l"] = "l" from rfl])
  have h1 := claim_C5 sliceChain oracleChain 1 5 [1] ["l"] 1 none
    [(1, [("l", [(0, 1), (1, 1), (2, 1)])])] [(1, [("l", [(0, 0), (1, 1), (2, 0)])])]
    1 ["l"] 1 1 hdc (by simp) (by simp) (by decide)
    (by simp [sliceChain, gChain]) (by simp [sliceChain, gChain]) (by decide) hacc1
    (by simp [dget3, dget, show joinKey ["l"] = "l" from rfl])
  have hmax0 : maxKey ((groupByDist (buildNodeDist (oracleChain 1 (5 + 1)) 0)).map
      Prod.fst) = 2 := by decide
  have hmax1 : maxKey ((groupByDist (buildNodeDist (oracleChain 1 (5 + 1)) 1)).map
      Prod.fst) = 1 := by decide
  rw [hmax0] at h0
  rw [hmax1] at h1
  exact ⟨h0.1, h1.1, h0.2⟩

end DynetxAssort
